import Mathlib

/-!
Verification development for the cgpt dossier-assembly and branch-reconciliation
engine (`src/cgpt/domain/conversations.py`, `src/cgpt/domain/dossier_cleaning.py`,
`src/cgpt/domain/dossier_builder.py`).

Texts are modelled as `List Char` (`Str`).  Python string primitives
(`strip`, `split`, `replace`, `count`, regular-expression substitutions) are
implemented as executable Lean functions with the same semantics on the
character sequences that reach them; each definition carries a comment naming
the Python construct it embeds.  Regular-expression substitutions are embedded
as left-to-right scanners that mirror `re.sub`: at each position the pattern is
tried (with the backtracking behaviour of the concrete pattern analysed in the
accompanying comment); on a match the matched span is replaced and scanning
resumes after it, otherwise one character is emitted.  Scanners whose match can
jump over several characters take an explicit fuel argument (always called with
`length + 1`, which is sufficient since every step consumes at least one
character); purely local scanners are written as structural state machines.

Python `float` timestamps are modelled as `Int` (the claims under study never
depend on fractional parts); the wall-clock (`time.time()`,
`ts_to_local_str`) is threaded as explicit parameters.
-/

set_option maxHeartbeats 4000000
set_option maxRecDepth 10000

/-- Character strings, modelled as lists of characters. -/
abbrev Str := List Char

/-- Python whitespace for ASCII text: the characters matched by `\s` and
stripped by `str.strip()` (space, tab, newline, carriage return, vertical tab,
form feed). -/
def isPySpace (c : Char) : Bool :=
  c = ' ' || c = '\t' || c = '\n' || c = '\r' || c = Char.ofNat 11 || c = Char.ofNat 12

/-- Python `str.lstrip()`. -/
def lstripL (s : Str) : Str := s.dropWhile isPySpace

/-- Python `str.rstrip()`. -/
def rstripL (s : Str) : Str := (s.reverse.dropWhile isPySpace).reverse

/-- Python `str.strip()`. -/
def stripL (s : Str) : Str := rstripL (lstripL s)

/-- State-machine form of `re.sub(r"\s+", " ", s)`: every maximal run of
whitespace becomes a single space.  The Boolean records whether the previous
input character was whitespace. -/
def collapseWsSM : Bool → Str → Str
  | _, [] => []
  | prev, c :: t =>
    if isPySpace c then
      if prev then collapseWsSM true t else ' ' :: collapseWsSM true t
    else c :: collapseWsSM false t

/-- `normalize_text` from `cgpt/core/io.py`: strip, then collapse internal
whitespace runs to single spaces. -/
def normalize_text (s : Str) : Str := collapseWsSM false (stripL s)

/-- Python `text.split("\n")`. -/
def splitLines : Str → List Str
  | [] => [[]]
  | c :: t =>
    if c = '\n' then [] :: splitLines t
    else
      match splitLines t with
      | p :: ps => (c :: p) :: ps
      | [] => [[c]]

/-- Python `"\n".join(lines)`. -/
def joinLines : List Str → Str
  | [] => []
  | [l] => l
  | l :: ls => l ++ '\n' :: joinLines ls

/-- Python `text.split("\n\n")` (used for paragraph splitting): leftmost,
non-overlapping scan for the two-character separator. -/
def splitPara : Str → List Str
  | [] => [[]]
  | ['\n'] => [['\n']]
  | '\n' :: '\n' :: t => [] :: splitPara t
  | '\n' :: c :: t =>
    match splitPara (c :: t) with
    | p :: ps => ('\n' :: p) :: ps
    | [] => [['\n', c]]
  | c :: t =>
    match splitPara t with
    | p :: ps => (c :: p) :: ps
    | [] => [[c]]

/-- Python `"\n\n".join(paras)`. -/
def joinPara : List Str → Str
  | [] => []
  | [l] => l
  | l :: ls => l ++ '\n' :: '\n' :: joinPara ls

/-- The number of indices of `h` at which `n` occurs (all positions, including
overlapping ones).  For needles with no nontrivial self-overlap — such as the
appendix marker — this coincides with the number of substring occurrences
counted by Python. -/
def countPos (n : Str) : Str → Nat
  | [] => 0
  | c :: t => (if n.isPrefixOf (c :: t) then 1 else 0) + countPos n t

/-- Python's `needle in haystack` for a nonempty needle. -/
def containsB (n : Str) : Str → Bool
  | [] => false
  | c :: t => n.isPrefixOf (c :: t) || containsB n t

/-- Fueled worker for Python `text.split(sep)` with nonempty `sep = n0 :: nr`:
scan left to right; each separator occurrence closes the current part. -/
def splitOnAux (n0 : Char) (nr : Str) : Nat → Str → List Str
  | 0, s => [s]
  | _ + 1, [] => [[]]
  | fuel + 1, c :: t =>
    if (n0 :: nr).isPrefixOf (c :: t) then
      [] :: splitOnAux n0 nr fuel (t.drop nr.length)
    else
      match splitOnAux n0 nr fuel t with
      | p :: ps => (c :: p) :: ps
      | [] => [[c]]

/-- Python `text.split(sep)` for a nonempty separator. -/
def splitOnP (n0 : Char) (nr : Str) (s : Str) : List Str :=
  splitOnAux n0 nr (s.length + 1) s

/-- Fueled worker for Python `text.replace(old, new)` with nonempty `old`. -/
def replaceAux (n0 : Char) (nr : Str) (repl : Str) : Nat → Str → Str
  | 0, s => s
  | _ + 1, [] => []
  | fuel + 1, c :: t =>
    if (n0 :: nr).isPrefixOf (c :: t) then
      repl ++ replaceAux n0 nr repl fuel (t.drop nr.length)
    else
      c :: replaceAux n0 nr repl fuel t

/-- Python `text.replace(old, new)` for a nonempty `old`. -/
def replaceAllP (n0 : Char) (nr : Str) (repl : Str) (s : Str) : Str :=
  replaceAux n0 nr repl (s.length + 1) s

/-- Decimal representation of a natural number, as characters. -/
def natStr (n : Nat) : Str := (Nat.toDigits 10 n)

/-- Stable insertion used to model Python `sorted`: a new element is placed
after every already-placed element that compares less-or-equal, so elements
with equal keys keep their original relative order (Python's sort is stable).
All call sites in this development sort lists of pairwise-distinct elements,
where any correct sort agrees with Python's. -/
def pyInsert (le : α → α → Bool) : List α → α → List α
  | [], x => [x]
  | y :: ys, x => if le y x then y :: pyInsert le ys x else x :: y :: ys

/-- Python `sorted(l)` with comparison `le` (a stable ascending sort). -/
def pySorted (le : α → α → Bool) (l : List α) : List α := l.foldl (pyInsert le) []

/-- Python string `<=`: lexicographic comparison by code point. -/
def strLeB : Str → Str → Bool
  | [], _ => true
  | _ :: _, [] => false
  | a :: as, b :: bs =>
    if a.toNat < b.toNat then true
    else if b.toNat < a.toNat then false
    else strLeB as bs

/-- `List.replicate` with the Python argument order (`c * n`). -/
def rep (n : Nat) (c : Char) : Str := List.replicate n c

/-- Python tuple `<=` on `(str, str)` pairs: first component, then second. -/
def pairLeB (p q : Str × Str) : Bool :=
  if p.1 = q.1 then strLeB p.2 q.2
  else strLeB p.1 q.1

/-! ### `cgpt/domain/conversations.py` -/

/-- A normalized message record (`Msg` dataclass): timestamp, role, text. -/
structure Msg where
  t : Int
  role : Str
  text : Str
deriving DecidableEq

/-- `longest_common_prefix_len`: index-by-index comparison, stopping at the
first mismatch or the end of the shorter list. -/
def longest_common_prefix_len : List (Str × Str) → List (Str × Str) → Nat
  | x :: xs, y :: ys => if x = y then longest_common_prefix_len xs ys + 1 else 0
  | _, _ => 0

/-- The projection used by `trim_branch_new_part`: role plus
whitespace-normalized text. -/
def projMsg (m : Msg) : Str × Str := (m.role, normalize_text m.text)

/-- `trim_branch_new_part`: drop the longest common prefix (under `projMsg`)
of the root's messages from the branch's messages. -/
def trim_branch_new_part (root_msgs branch_msgs : List Msg) : List Msg :=
  let ra := root_msgs.map projMsg
  let rb := branch_msgs.map projMsg
  branch_msgs.drop (longest_common_prefix_len ra rb)

/-- Python `set.add` on a list model of a set (order of first insertion). -/
def setAdd (acc : List Nat) (j : Nat) : List Nat :=
  if j ∈ acc then acc else acc ++ [j]

/-- The hit indices of `excerpt_messages`: positions of messages whose text
matches the pattern (`[i for i, m in enumerate(msgs) if pattern.search(m.text)]`).
The compiled regex is modelled as a Boolean predicate on the message text. -/
def excerptHits (msgs : List Msg) (pattern : Str → Bool) : List Nat :=
  (msgs.enum.filter (fun p => pattern p.2.text)).map Prod.fst

/-- The `keep` set of `excerpt_messages`: for each hit `i`, the indices of
`range(max(0, i - context), min(len(msgs), i + context + 1))` are added to a
set (modelled as a duplicate-free list in insertion order; natural-number
subtraction realizes the clamp at 0). -/
def excerptKeep (msgs : List Msg) (pattern : Str → Bool) (context : Nat) :
    List Nat :=
  (excerptHits msgs pattern).foldl
    (fun acc i =>
      (List.range' (i - context)
          (min msgs.length (i + context + 1) - (i - context))).foldl setAdd acc)
    []

/-- `excerpt_messages`: indices of pattern hits, each widened by `context` and
clamped to the list bounds; the kept indices are collected in a set, sorted
(`sorted(keep)`) and mapped back to messages. -/
def excerpt_messages (msgs : List Msg) (pattern : Str → Bool) (context : Nat) :
    List Msg :=
  if msgs.isEmpty then []
  else if (excerptHits msgs pattern).isEmpty then []
  else
    (pySorted (fun a b => decide (a ≤ b)) (excerptKeep msgs pattern context)).filterMap
      (fun i => msgs[i]?)

/-- Specification form of the excerpt operation: the subsequence of `msgs` at
the indices that fall in some hit's context window. -/
def excerptSpec (msgs : List Msg) (pattern : Str → Bool) (context : Nat) :
    List Msg :=
  ((List.range msgs.length).filter
      (fun j => (excerptHits msgs pattern).any
        (fun i => i - context ≤ j && j < i + context + 1))).filterMap
    (fun i => msgs[i]?)

/-- A raw conversation record, with the fields read by `conv_id_and_title`
and the builder (`id` / `conversation_id` / `uuid` / `title` / `name` /
`create_time`). -/
structure Conv where
  id : Option Str := none
  conversation_id : Option Str := none
  uuid : Option Str := none
  title : Option Str := none
  name : Option Str := none
  create_time : Option Int := none
deriving DecidableEq

instance : Inhabited Conv := ⟨{}⟩

instance : Inhabited Msg := ⟨⟨0, [], []⟩⟩

/-- Python truthiness-respecting `or` over optional strings: the first
operand that is neither `None` nor empty wins. -/
def orTruthy (a b : Option Str) : Option Str :=
  match a with
  | some s => if s = [] then b else some s
  | none => b

/-- `conv_id_and_title`: id from `id`/`conversation_id`/`uuid` (first truthy),
title from `title`/`name` with tabs and newlines replaced by spaces, then
stripped. -/
def conv_id_and_title (c : Conv) : Option Str × Str :=
  let cid := orTruthy c.id (orTruthy c.conversation_id c.uuid)
  let rawTitle := (orTruthy c.title c.name).getD []
  let title := stripL (rawTitle.map (fun ch => if ch = '\t' ∨ ch = '\n' then ' ' else ch))
  (cid, title)

/-- Python `float(value or 0.0)` on the modelled integral timestamps
(`coerce_create_time`). -/
def coerce_create_time (v : Option Int) : Int := v.getD 0

/-- One step of the `build_conversation_map_by_id` loop: `byId` is the map in
insertion order, `dups` the duplicate-id set in first-detection order. -/
def convMapStep (acc : List (Str × Conv) × List Str) (c : Conv) :
    List (Str × Conv) × List Str :=
  let (byId, dups) := acc
  match (conv_id_and_title c).1 with
  | none => (byId, dups)
  | some cid =>
    if (byId.map Prod.fst).contains cid then
      (byId, if dups.contains cid then dups else dups ++ [cid])
    else
      (byId ++ [(cid, c)], dups)

/-- `build_conversation_map_by_id`: fatal (`die`) when any id occurs twice,
with a message listing the sorted duplicated ids; otherwise the map keeps the
first record for each id and skips records without an id. -/
def build_conversation_map_by_id (convs : List Conv) :
    Except Str (List (Str × Conv)) :=
  if (convs.foldl convMapStep ([], [])).2.isEmpty then
    .ok (convs.foldl convMapStep ([], [])).1
  else
    .error ("Duplicate conversation ID(s) found in export:\n".toList
      ++ joinLines (pySorted strLeB (convs.foldl convMapStep ([], [])).2))

/-- The (truthy) conversation ids of a record list, in order. -/
def convIds (convs : List Conv) : List Str :=
  convs.filterMap (fun c => (conv_id_and_title c).1)

/-- The duplicate-id set accumulated by `build_conversation_map_by_id`. -/
def dupIds (convs : List Conv) : List Str :=
  (convs.foldl convMapStep ([], [])).2

/-- Whether a record's id is `k`. -/
def hasId (k : Str) (x : Conv) : Bool := decide ((conv_id_and_title x).1 = some k)

/-- Invariant of the `build_conversation_map_by_id` loop after processing the
records `done`: the keys are exactly the distinct ids seen, each mapped to the
first record with that id, and `dups` holds exactly the ids seen at least
twice. -/
def ConvMapInv (done : List Conv) (byId : List (Str × Conv)) (dups : List Str) :
    Prop :=
  (byId.map Prod.fst).Nodup ∧
  (∀ k c, (k, c) ∈ byId ↔ done.find? (hasId k) = some c) ∧
  (∀ k, k ∈ byId.map Prod.fst ↔ k ∈ convIds done) ∧
  (∀ s, s ∈ dups ↔ 2 ≤ (convIds done).count s)

/-! ### Sources registry of `_build_clean_txt` (`dossier_cleaning.py`) -/

/-- One step of the `sources_dict` construction in `_build_clean_txt`
(lines 143-147): Python dict insertion, so the first occurrence of each URL
wins. -/
def sourcesDictStep (acc : List (Str × Str)) (p : Str × Str) : List (Str × Str) :=
  if (acc.map Prod.fst).contains p.1 then acc else acc ++ [p]

/-- The deduplicated `sources_dict` of `_build_clean_txt`, as an association
list in insertion order. -/
def sourcesDict (all_sources : List (Str × Str)) : List (Str × Str) :=
  all_sources.foldl sourcesDictStep []

/-- `sorted(sources_dict.items())`: the registry items sorted as Python sorts
`(url, label)` tuples — primarily by URL, label only breaking ties. -/
def sourcesSorted (all_sources : List (Str × Str)) : List (Str × Str) :=
  pySorted pairLeB (sourcesDict all_sources)

/-- The numbered registry entries: `enumerate(sorted(...), start=1)`. -/
def sourcesEntries (all_sources : List (Str × Str)) : List (Nat × Str × Str) :=
  (sourcesSorted all_sources).enum.map (fun p => (p.1 + 1, p.2))

/-- One rendered registry entry: `f"[{i}] {label}\n    {url}\n\n"`. -/
def sourceEntryLine (i : Nat) (label url : Str) : Str :=
  '[' :: natStr i ++ ']' :: ' ' :: label ++ "
    ".toList ++ url ++ "

".toList

/-- The sources-registry block appended by `_build_clean_txt` (lines 141-154):
nothing when no source was collected, otherwise the `=`-framed header and the
numbered entries. -/
def sourcesRegistryBlock (all_sources : List (Str × Str)) : Str :=
  if all_sources.isEmpty then []
  else
    '
' :: (rep 70 '=' ++ '
' :: ("SOURCES REGISTRY".toList
      ++ '
' :: (rep 70 '=' ++ "

".toList
      ++ ((sourcesEntries all_sources).map
            (fun e => sourceEntryLine e.1 e.2.2 e.2.1)).flatten)))

/-- Whether a source pair carries the URL `u`. -/
def hasUrl (u : Str) (p : Str × Str) : Bool := decide (p.1 = u)

/-! ### Paragraph deduplication (`_deduplicate_blocks`) -/

/-- The `_deduplicate_blocks` loop: paragraphs shorter than `min_block_size`
are always kept; longer paragraphs are kept only if the hash of their
whitespace-normalized content was not seen before.  Python's per-process
`hash` is modelled as an injective (collision-free) hash, i.e. the normalized
content itself is used as the key of the `seen_hashes` dict. -/
def dedupBlocksGo (min_block_size : Nat) (seen : List Str) : List Str → List Str
  | [] => []
  | para :: rest =>
    if para.length < min_block_size then
      para :: dedupBlocksGo min_block_size seen rest
    else if seen.contains (normalize_text para) then
      dedupBlocksGo min_block_size seen rest
    else
      para :: dedupBlocksGo min_block_size (seen ++ [normalize_text para]) rest

/-- `_deduplicate_blocks`: split on `"\n\n"`, deduplicate, and re-join. -/
def deduplicate_blocks (text : Str) (min_block_size : Nat) : Str :=
  joinPara (dedupBlocksGo min_block_size [] (splitPara text))

/-- Claim-side formulation of the deduplication filter: a paragraph is kept
iff it is shorter than `min_block_size`, or no earlier paragraph of length at
least `min_block_size` has the same whitespace-normalized content. -/
def dedupKeepSpecGo (min_block_size : Nat) (earlier : List Str) :
    List Str → List Str
  | [] => []
  | p :: rest =>
    if p.length < min_block_size ∨
        ¬ ∃ q ∈ earlier, min_block_size ≤ q.length ∧
            normalize_text q = normalize_text p then
      p :: dedupKeepSpecGo min_block_size (earlier ++ [p]) rest
    else
      dedupKeepSpecGo min_block_size (earlier ++ [p]) rest

/-! ### Cleaning stages of `dossier_cleaning.py`

Each `re.sub(pattern, "", text)` is embedded as a fueled left-to-right scanner
(`reSub` and its `^`-anchored and word-boundary variants) driven by a matcher
for the concrete pattern.  A matcher receives the suffix of the text starting
at the current scan position and returns the remainder after the match (the
matched span is deleted), or `none` when the pattern cannot match there.  The
deterministic matchers encode the backtracking behaviour of each concrete
pattern, as analysed in their comments. -/

/-- Generic `re.sub(p, "", s)` scanner: try the matcher at every position,
deleting matched spans and resuming after them. -/
def reSub (m : Str → Option Str) : Nat → Str → Str
  | 0, s => s
  | _ + 1, [] => []
  | fuel + 1, c :: t =>
    match m (c :: t) with
    | some rest => reSub m fuel rest
    | none => c :: reSub m fuel t

/-- `re.sub` scanner for `^`-anchored patterns under `re.MULTILINE`: the
matcher is tried only at line starts.  `post` records whether the position
after a deleted span is again a line start: `false` for matchers that stop
before a newline, `true` for matchers that consume through a newline (or
stop only at the end of the string). -/
def reSubLS (m : Str → Option Str) (post : Bool) : Bool → Nat → Str → Str
  | _, 0, s => s
  | _, _ + 1, [] => []
  | atStart, fuel + 1, c :: t =>
    if atStart then
      match m (c :: t) with
      | some rest => reSubLS m post post fuel rest
      | none => c :: reSubLS m post (c = '\n') fuel t
    else c :: reSubLS m post (c = '\n') fuel t

/-- Python `\w` for ASCII text. -/
def isWordChar (c : Char) : Bool := c.isAlpha || c.isDigit || c = '_'

/-- `re.sub` scanner for `\b`-prefixed patterns: the matcher is tried only
where the previous character is not a word character.  All matchers used with
this scanner end on a word character, so after a deleted span the state is
"previous character was a word character". -/
def reSubWB (m : Str → Option Str) : Bool → Nat → Str → Str
  | _, 0, s => s
  | _, _ + 1, [] => []
  | prevWord, fuel + 1, c :: t =>
    if prevWord then c :: reSubWB m (isWordChar c) fuel t
    else
      match m (c :: t) with
      | some rest => reSubWB m true fuel rest
      | none => c :: reSubWB m (isWordChar c) fuel t

/-- Case-insensitive ASCII prefix test (`re.IGNORECASE` on ASCII patterns). -/
def isPrefixOfCI : Str → Str → Bool
  | [], _ => true
  | _ :: _, [] => false
  | p :: ps, c :: cs => p.toLower = c.toLower && isPrefixOfCI ps cs

/-- The remainder after the first occurrence of the character `stop`. -/
def skipPastChar (stop : Char) : Str → Option Str
  | [] => none
  | c :: t => if c = stop then some t else skipPastChar stop t

/-- The remainder after the first occurrence of the substring `pat`
(`pat` nonempty at all call sites). -/
def skipPastSub (pat : Str) : Str → Option Str
  | [] => none
  | c :: t =>
    if pat.isPrefixOf (c :: t) then some ((c :: t).drop pat.length)
    else skipPastSub pat t

/-- Case-insensitive variant of `skipPastSub`. -/
def skipPastSubCI (pat : Str) : Str → Option Str
  | [] => none
  | c :: t =>
    if isPrefixOfCI pat (c :: t) then some ((c :: t).drop pat.length)
    else skipPastSubCI pat t

/-- The remainder after a character satisfying `p`. -/
def skipPastPred (p : Char → Bool) : Str → Option Str
  | [] => none
  | c :: t => if p c then some t else skipPastPred p t

/-- The suffix of the text starting at the first occurrence of `pat`. -/
def firstMatchSuffix (pat : Str) : Str → Option Str
  | [] => none
  | c :: t =>
    if pat.isPrefixOf (c :: t) then some (c :: t) else firstMatchSuffix pat t

/-- The prefix of the text up to and including the first `stop` character. -/
def takeThroughChar (stop : Char) : Str → Option Str
  | [] => none
  | c :: t =>
    if c = stop then some [c] else (takeThroughChar stop t).map (c :: ·)

/-- Whether the matcher succeeds somewhere in the text (`re.search`). -/
def hasMatch (m : Str → Option Str) : Str → Bool
  | [] => (m []).isSome
  | c :: t => (m (c :: t)).isSome || hasMatch m t

/-- Python `needle in haystack` (an empty needle is contained anywhere). -/
def pyIn (n s : Str) : Bool :=
  match n with
  | [] => true
  | _ => containsB n s

/-- Case-insensitive substring test. -/
def containsCI (pat s : Str) : Bool :=
  pyIn (pat.map Char.toLower) (s.map Char.toLower)

/-- Apply a per-line rewrite (the form taken by `^...$`-anchored `re.sub`s
under `re.MULTILINE` whose match always covers exactly one line's content). -/
def mapLines (f : Str → Str) (t : Str) : Str := joinLines ((splitLines t).map f)

/-- `re.sub(r" {2,}", " ", s)` as a state machine: every maximal run of
spaces becomes a single space (runs of one are unchanged). -/
def collapseSpaceRuns (prev : Bool) : Str → Str
  | [] => []
  | c :: t =>
    if c = ' ' then
      if prev then collapseSpaceRuns true t else ' ' :: collapseSpaceRuns true t
    else c :: collapseSpaceRuns false t

/-- `re.sub(r"\n{3,}", "\n\n", s)` as a state machine: `k` counts the
newlines already emitted for the current run (capped at 2). -/
def collapseNewlineRuns (k : Nat) : Str → Str
  | [] => []
  | c :: t =>
    if c = '\n' then
      if 2 ≤ k then collapseNewlineRuns k t
      else '\n' :: collapseNewlineRuns (k + 1) t
    else c :: collapseNewlineRuns 0 t

/-! #### `_strip_citation_markers` -/

/-- `<citeturn[^>]*>` (IGNORECASE): `<` followed by `citeturn`, then
everything up to the first `>`. -/
def matchCiteTag (s : Str) : Option Str :=
  match s with
  | '<' :: t =>
    if isPrefixOfCI "citeturn".toList t then skipPastChar '>' t else none
  | _ => none

/-- `<navlist>.*?</navlist>` (DOTALL, IGNORECASE): lazy `.*?` reaches the
first closing tag. -/
def matchNavlist (s : Str) : Option Str :=
  match s with
  | '<' :: t =>
    if isPrefixOfCI "navlist>".toList t then
      skipPastSubCI "</navlist>".toList (t.drop 8)
    else none
  | _ => none

/-- `\bturn\d+news\d+\b` (IGNORECASE) without the leading boundary (checked
by `reSubWB`): greedy digit runs are forced (shorter runs leave a digit where
a letter is required), so the matcher is deterministic. -/
def matchTurnNews (s : Str) : Option Str :=
  if isPrefixOfCI "turn".toList s then
    let s1 := s.drop 4
    let d1 := s1.takeWhile Char.isDigit
    if d1 = [] then none
    else
      let s2 := s1.drop d1.length
      if isPrefixOfCI "news".toList s2 then
        let s3 := s2.drop 4
        let d2 := s3.takeWhile Char.isDigit
        if d2 = [] then none
        else
          match s3.drop d2.length with
          | [] => some []
          | c :: rest => if isWordChar c then none else some (c :: rest)
      else none
  else none

/-- `\[\d+\](?!\S)`: a lone numeric citation bracket; the lookahead demands
end-of-text or whitespace and consumes nothing. -/
def matchLoneBracket (s : Str) : Option Str :=
  match s with
  | '[' :: t =>
    let d := t.takeWhile Char.isDigit
    if d = [] then none
    else
      match t.drop d.length with
      | ']' :: rest =>
        match rest with
        | [] => some []
        | c :: _ => if isPySpace c then some rest else none
      | _ => none
  | _ => none

/-- `【[^】]*†[^】]*】`: a CJK-bracket span closed by the first `】`, which
must contain a dagger. -/
def matchCJKDagger (s : Str) : Option Str :=
  match s with
  | '【' :: t =>
    let inner := t.takeWhile (fun c => c ≠ '】')
    match t.drop inner.length with
    | '】' :: rest => if inner.contains '†' then some rest else none
    | _ => none
  | _ => none

/-- `【[^】]*】`: any remaining CJK-bracket span. -/
def matchCJKAny (s : Str) : Option Str :=
  match s with
  | '【' :: t =>
    let inner := t.takeWhile (fun c => c ≠ '】')
    match t.drop inner.length with
    | '】' :: rest => some rest
    | _ => none
  | _ => none

/-- `\[REF REMOVED\]` (IGNORECASE). -/
def matchRefRemoved (s : Str) : Option Str :=
  if isPrefixOfCI "[REF REMOVED]".toList s then some (s.drop 13) else none

/-- `_strip_citation_markers`: the ordered `re.sub` passes of the source,
followed by the whitespace cleanup and `strip()`. -/
def strip_citation_markers (text : Str) : Str :=
  let t1 := reSub matchCiteTag (text.length + 1) text
  let t2 := reSub matchNavlist (t1.length + 1) t1
  let t3 := reSubWB matchTurnNews false (t2.length + 1) t2
  let t4 := reSub matchLoneBracket (t3.length + 1) t3
  let t5 := reSub matchCJKDagger (t4.length + 1) t4
  let t6 := reSub matchCJKAny (t5.length + 1) t5
  let t7 := reSub matchRefRemoved (t6.length + 1) t6
  let t8 := collapseSpaceRuns false t7
  let t9 := collapseNewlineRuns 0 t8
  stripL t9

/-! #### `_sanitize_openai_markup` -/

/-- `</?[a-zA-Z][^>]*/?>\s*`: an angle-bracket tag (optional slash, a letter,
then everything up to the first `>`), plus the trailing whitespace. -/
def matchHtmlTag (s : Str) : Option Str :=
  match s with
  | '<' :: t =>
    let t1 := match t with
      | '/' :: t' => t'
      | _ => t
    match t1 with
    | c :: t2 =>
      if c.isAlpha then
        match skipPastChar '>' t2 with
        | some rest => some (rest.dropWhile isPySpace)
        | none => none
      else none
    | [] => none
  | _ => none

/-- `<span[^>]*>.*?</span>` (DOTALL, case-sensitive). -/
def matchSpanBlock (s : Str) : Option Str :=
  match s with
  | '<' :: t =>
    if "span".toList.isPrefixOf t then
      match skipPastChar '>' (t.drop 4) with
      | some rest1 => skipPastSub "</span>".toList rest1
      | none => none
    else none
  | _ => none

/-- `APPENDIX:\s*RESEARCH LOG & TOOL ARTIFACTS\s*` (IGNORECASE). -/
def matchAppendixPhrase (s : Str) : Option Str :=
  if isPrefixOfCI "APPENDIX:".toList s then
    let s1 := (s.drop 9).dropWhile isPySpace
    if isPrefixOfCI "RESEARCH LOG & TOOL ARTIFACTS".toList s1 then
      some ((s1.drop 29).dropWhile isPySpace)
    else none
  else none

/-- Unicode private-use-area characters (`[-]`). -/
def isPUA (c : Char) : Bool := 0xE000 ≤ c.toNat && c.toNat ≤ 0xF8FF

/-- `[-].*?[-]` (DOTALL): a span bounded by two
private-use characters, lazily closed at the next one. -/
def matchPuaSpan (s : Str) : Option Str :=
  match s with
  | c :: t => if isPUA c then skipPastPred isPUA t else none
  | [] => none

/-- `(?:cite)?turn\d+(?:search|news|view|file)\w*` (IGNORECASE), the
`turn...` core: greedy digits, one keyword (their first letters differ, so at
most one alternative applies), then a greedy word-character run. -/
def matchTurnCore (s : Str) : Option Str :=
  if isPrefixOfCI "turn".toList s then
    let s1 := s.drop 4
    let d := s1.takeWhile Char.isDigit
    if d = [] then none
    else
      let s2 := s1.drop d.length
      let kw :=
        if isPrefixOfCI "search".toList s2 then some 6
        else if isPrefixOfCI "news".toList s2 then some 4
        else if isPrefixOfCI "view".toList s2 then some 4
        else if isPrefixOfCI "file".toList s2 then some 4
        else none
      match kw with
      | some k => some ((s2.drop k).dropWhile isWordChar)
      | none => none
  else none

/-- The full turn-token pattern: the greedy optional `cite` is tried first. -/
def matchTurnToken (s : Str) : Option Str :=
  if isPrefixOfCI "cite".toList s then
    match matchTurnCore (s.drop 4) with
    | some rest => some rest
    | none => matchTurnCore s
  else matchTurnCore s

/-- `\bciteturn\d+\w+\b` (IGNORECASE) without the leading boundary: the
word-character run after `citeturn` must start with a digit and have at least
two characters (`\d+` then a nonempty `\w+`, ending at the run's end where
the trailing boundary holds). -/
def matchCiteturnTail (s : Str) : Option Str :=
  if isPrefixOfCI "citeturn".toList s then
    let s1 := s.drop 8
    let run := s1.takeWhile isWordChar
    let d := run.takeWhile Char.isDigit
    if d = [] then none
    else if run.length < 2 then none
    else some (s1.drop run.length)
  else none

/-- `^={60,}.*?$` (MULTILINE) as a per-line rewrite: the content of every
line beginning with at least 60 `=` characters is removed. -/
def sep60Line (l : Str) : Str :=
  if 60 ≤ (l.takeWhile (fun c => c = '=')).length then [] else l

/-- Non-printing artifacts (`[­�￾]`). -/
def isNonPrinting (c : Char) : Bool :=
  c.toNat = 0xAD || c.toNat = 0xFFFD || c.toNat = 0xFFFE

/-- `_sanitize_openai_markup`: the ordered `re.sub` passes of the source,
followed by the whitespace cleanup and `strip()`. -/
def sanitize_openai_markup (text : Str) : Str :=
  let t1 := reSub matchHtmlTag (text.length + 1) text
  let t2 := reSub matchSpanBlock (t1.length + 1) t1
  let t3 := reSub matchAppendixPhrase (t2.length + 1) t2
  let t4 := reSub matchPuaSpan (t3.length + 1) t3
  let t5 := t4.filter (fun c => !(isPUA c))
  let t6 := t5.filter (fun c => !(isNonPrinting c))
  let t7 := reSub matchTurnToken (t6.length + 1) t6
  let t8 := reSubWB matchCiteturnTail false (t7.length + 1) t7
  let t9 := mapLines sep60Line t8
  let t10 := collapseSpaceRuns false t9
  let t11 := collapseNewlineRuns 0 t10
  stripL t11

/-! #### `_strip_tool_noise` -/

/-- The apostrophe character. -/
def apos : Char := Char.ofNat 39

/-- The opening and closing curly-brace characters. -/
def lbrace : Char := Char.ofNat 123

def rbrace : Char := Char.ofNat 125

/-- The 18 tool-related JSON keys of `_strip_tool_noise` (no key is a prefix
of another, so at most one alternative of the alternation matches at any
position). -/
def toolKeys : List Str :=
  ["search_query".toList, "tool_call".toList, "function".toList,
   "action".toList, "open".toList, "click".toList, "find".toList,
   "screenshot".toList, "response_length".toList, "file_path".toList,
   "command".toList, "terminal".toList, "browser".toList,
   "task_violates_safety_guidelines".toList, "updates".toList,
   "comments".toList, "title".toList, "prompt".toList]

/-- `\{\s*['\"]?(?:KEY|...)['\"]?.*?\}` (DOTALL): a brace, greedy whitespace,
an optional quote, one of the tool keys, then lazily to the first closing
brace. -/
def matchToolJson (s : Str) : Option Str :=
  match s with
  | c :: t =>
    if c = lbrace then
      let t1 := t.dropWhile isPySpace
      let t2 := match t1 with
        | q :: t' => if q = '"' || q = apos then t' else t1
        | [] => t1
      match toolKeys.find? (fun k => k.isPrefixOf t2) with
      | some k => skipPastChar rbrace (t2.drop k.length)
      | none => none
    else none
  | [] => none

/-- `\[tool_call:.*?\]` (DOTALL). -/
def matchToolCallMarker (s : Str) : Option Str :=
  if "[tool_call:".toList.isPrefixOf s then skipPastChar ']' (s.drop 11)
  else none

/-- `^\s*(?:\*\*)?tool\s*\(.*` (MULTILINE) without the anchor: the greedy
`.*` stops before the newline. -/
def matchToolParen (s : Str) : Option Str :=
  let s1 := s.dropWhile isPySpace
  let s2 := if "**".toList.isPrefixOf s1 then s1.drop 2 else s1
  if "tool".toList.isPrefixOf s2 then
    let s3 := (s2.drop 4).dropWhile isPySpace
    match s3 with
    | '(' :: t => some (t.dropWhile (fun c => c ≠ '\n'))
    | _ => none
  else none

/-- `^\s*(?:\*\*)?tool\s+\w+.*` (MULTILINE) without the anchor. -/
def matchToolWord (s : Str) : Option Str :=
  let s1 := s.dropWhile isPySpace
  let s2 := if "**".toList.isPrefixOf s1 then s1.drop 2 else s1
  if "tool".toList.isPrefixOf s2 then
    match s2.drop 4 with
    | c :: t =>
      if isPySpace c then
        match t.dropWhile isPySpace with
        | d :: t2 =>
          if isWordChar d then some (t2.dropWhile (fun e => e ≠ '\n'))
          else none
        | [] => none
      else none
    | [] => none
  else none

/-- `(?:Successfully created|Successfully updated|Failed with error).*?\n`:
the lazy `.*?` cannot cross a newline, so the match reaches the first
newline after the literal (and fails if there is none). -/
def matchStatusLine (s : Str) : Option Str :=
  if "Successfully created".toList.isPrefixOf s then
    skipPastChar '\n' (s.drop 20)
  else if "Successfully updated".toList.isPrefixOf s then
    skipPastChar '\n' (s.drop 20)
  else if "Failed with error".toList.isPrefixOf s then
    skipPastChar '\n' (s.drop 17)
  else none

/-- The meta-prompt trigger phrases of
`^[^\n]*(?:Make sure to|remember to|don't forget to).*?$` (IGNORECASE). -/
def metaPhrases : List Str :=
  ["Make sure to".toList, "remember to".toList,
   "don".toList ++ [apos] ++ "t forget to".toList]

/-- The meta-prompt `re.sub` as a per-line rewrite: the greedy `[^\n]*` and
the anchors make the match cover exactly the content of any line containing
one of the phrases. -/
def metaPromptLine (l : Str) : Str :=
  if metaPhrases.any (fun p => containsCI p l) then [] else l

/-- Scan for the lookahead `(?=^##\s|\Z)` of the `##`-block patterns: the
lazy `.*?` (DOTALL) stops right after the first newline that is followed by
`##` and a whitespace character, or at the end of the string. -/
def skipToHashHeading : Str → Str
  | [] => []
  | c :: t =>
    if c = '\n' then
      match t with
      | '#' :: '#' :: d :: _ =>
        if isPySpace d then t else skipToHashHeading t
      | _ => skipToHashHeading t
    else skipToHashHeading t

/-- `^##\s+PHRASE.*?(?=^##\s|\Z)` (DOTALL, MULTILINE, IGNORECASE) without
the anchor. -/
def matchHashBlock (phrase : Str) (s : Str) : Option Str :=
  match s with
  | '#' :: '#' :: c :: t2 =>
    if isPySpace c then
      let s1 := t2.dropWhile isPySpace
      if isPrefixOfCI phrase s1 then
        some (skipToHashHeading (s1.drop phrase.length))
      else none
    else none
  | _ => none

/-- `^The file is too long and its contents have been truncated\..*?$`
(MULTILINE, IGNORECASE) as a per-line rewrite. -/
def truncatedLine (l : Str) : Str :=
  if isPrefixOfCI
      "The file is too long and its contents have been truncated.".toList l
  then [] else l

/-- Zero-width characters removed before the line-level checks
(`[​-‏⁠﻿]`). -/
def zeroWidthChar (c : Char) : Bool :=
  (0x200B ≤ c.toNat && c.toNat ≤ 0x200F) || c.toNat = 0x2060 ||
    c.toNat = 0xFEFF

/-- `\[\s*JSON\s*/\s*Tool\s*Call\s*\]` (IGNORECASE). -/
def matchJsonToolCallTag (s : Str) : Option Str :=
  match s with
  | '[' :: t =>
    let t1 := t.dropWhile isPySpace
    if isPrefixOfCI "JSON".toList t1 then
      let t2 := (t1.drop 4).dropWhile isPySpace
      match t2 with
      | '/' :: t3 =>
        let t4 := t3.dropWhile isPySpace
        if isPrefixOfCI "Tool".toList t4 then
          let t5 := (t4.drop 4).dropWhile isPySpace
          if isPrefixOfCI "Call".toList t5 then
            match t5.drop 4 with
            | ']' :: rest => some rest
            | _ => none
          else none
        else none
      | _ => none
    else none
  | _ => none

/-- Does a quoted form of the key occur in the line
(`f'"{key}"' in s or f"'{key}'" in s`)? -/
def quotedKeyIn (key l : Str) : Bool :=
  containsB ('"' :: (key ++ ['"'])) l || containsB (apos :: (key ++ [apos])) l

/-- The safety/system keys checked in quoted form. -/
def safetyKeys : List Str :=
  ["task_violates_safety_guidelines".toList, "updates".toList,
   "comments".toList]

/-- The per-line keep test of the final loop of `_strip_tool_noise`. -/
def noiseLineKept (l : Str) : Bool :=
  let normalized := (stripL l).filter (fun c => !(zeroWidthChar c))
  !(hasMatch matchJsonToolCallTag normalized) &&
  !(decide (normalized.head? = some lbrace) &&
      toolKeys.any (fun k => containsB k normalized)) &&
  !(safetyKeys.any (fun k => quotedKeyIn k normalized))

/-- `_strip_tool_noise`: the ordered passes of the source, then the
line-keep filter, blank-line collapse and `strip()`. -/
def strip_tool_noise (text : Str) : Str :=
  let t1 := reSub matchToolJson (text.length + 1) text
  let t2 := reSub matchToolCallMarker (t1.length + 1) t1
  let t3 := reSubLS matchToolParen false true (t2.length + 1) t2
  let t4 := reSubLS matchToolWord false true (t3.length + 1) t3
  let t5 := reSub matchStatusLine (t4.length + 1) t4
  let t6 := mapLines metaPromptLine t5
  let t7 := reSubLS
    (matchHashBlock "How to invoke the file_search tool".toList)
    true true (t6.length + 1) t6
  let t8 := reSubLS
    (matchHashBlock "How to handle results from file_search".toList)
    true true (t7.length + 1) t7
  let t9 := reSubLS (matchHashBlock "Tool usage instructions".toList)
    true true (t8.length + 1) t8
  let t10 := mapLines truncatedLine t9
  let t11 := joinLines ((splitLines t10).filter noiseLineKept)
  let t12 := collapseNewlineRuns 0 t11
  stripL t12

/-! #### Appendix helpers -/

/-- `_is_appendix_header_line`: keep only ASCII letters, uppercase, then
look for both tokens. -/
def is_appendix_header_line (line : Str) : Bool :=
  let normalized := (line.filter Char.isAlpha).map Char.toUpper
  containsB "APPENDIX".toList normalized &&
    containsB "RESEARCHLOGTOOLARTIFACTS".toList normalized

/-- The lines before the first appendix header line, or `none` when there is
no header line. -/
def stripExistingAppendixGo : List Str → Option (List Str)
  | [] => none
  | l :: ls =>
    if is_appendix_header_line l then some []
    else (stripExistingAppendixGo ls).map (fun p => l :: p)

/-- `_strip_existing_appendix`: truncate at the first appendix header line
and `rstrip()`; without a header line the text is returned unchanged. -/
def strip_existing_appendix (text : Str) : Str :=
  match stripExistingAppendixGo (splitLines text) with
  | some pre => rstripL (joinLines pre)
  | none => text

/-- `_remove_appendix_header_lines`. -/
def remove_appendix_header_lines (text : Str) : Str :=
  joinLines ((splitLines text).filter (fun l => !(is_appendix_header_line l)))

/-- `_replace_dead_citations` returns its input unchanged. -/
def replace_dead_citations (text : Str) (_sources : List (Str × Str)) : Str :=
  text

/-- The literal appendix marker of `_dedupe_appendix_header` and of the
builder's appendix block. -/
def appendixMarker : Str := "APPENDIX: RESEARCH LOG & TOOL ARTIFACTS".toList

/-- `_dedupe_appendix_header`: split on the marker; with at most two parts
the text is unchanged, otherwise the first two parts are rejoined with one
marker and the remaining parts are concatenated with every further marker
occurrence removed. -/
def dedupe_appendix_header (text : Str) : Str :=
  if containsB appendixMarker text then
    let parts := splitOnP 'A' (appendixMarker.drop 1) text
    if parts.length ≤ 2 then text
    else
      match parts with
      | p0 :: p1 :: rest =>
        p0 ++ appendixMarker ++ p1 ++
          replaceAllP 'A' (appendixMarker.drop 1) [] rest.flatten
      | _ => text
  else text

/-! #### `_extract_sources` -/

/-- Characters admitted by the URL body class `[^\s\)\]\}\"\']`. -/
def urlBodyChar (c : Char) : Bool :=
  !(isPySpace c || c = ')' || c = ']' || c = rbrace || c = '"' || c = apos)

/-- The trailing punctuation excluded by the final character class of the
URL pattern (its quote characters are already excluded from the body). -/
def urlEndPunct (c : Char) : Bool :=
  c = '.' || c = ',' || c = ';' || c = ':' || c = '!' || c = '?'

/-- The part after `https?://`: the greedy body run, backtracked until the
last character is not trailing punctuation; an empty remainder fails.
Returns the matched core and the rest of the input after the body run (the
skipped punctuation tail cannot start a new `http` match). -/
def urlFrom (s : Str) : Option (Str × Str) :=
  let run := s.takeWhile urlBodyChar
  let core := (run.reverse.dropWhile urlEndPunct).reverse
  if core = [] then none else some (core, s.drop run.length)

/-- One match of `https?://[^\s\)\]\}\"\']*[^\s\)\]\}\"\'\.,;:!?]` at the
current position. -/
def matchUrl (s : Str) : Option (Str × Str) :=
  if "https://".toList.isPrefixOf s then
    (urlFrom (s.drop 8)).map (fun p => ("https://".toList ++ p.1, p.2))
  else if "http://".toList.isPrefixOf s then
    (urlFrom (s.drop 7)).map (fun p => ("http://".toList ++ p.1, p.2))
  else none

/-- `url_pattern.findall(text)`. -/
def findUrls : Nat → Str → List Str
  | 0, _ => []
  | _ + 1, [] => []
  | fuel + 1, c :: t =>
    match matchUrl (c :: t) with
    | some (g, rest) => g :: findUrls fuel rest
    | none => findUrls fuel t

/-- `re.sub(r"[.,;:!?\'\"]$", "", url)`: drop one trailing character of the
class (a no-op on pattern matches, which never end in these characters). -/
def stripTrailingPunctOnce (u : Str) : Str :=
  match u.reverse with
  | c :: t => if urlEndPunct c || c = apos || c = '"' then t.reverse else u
  | [] => u

/-- `urlparse` separates `;params` from the last segment of the path. -/
def splitParamsPath (path : Str) : Str :=
  if path.contains '/' then
    let afterLast := (path.reverse.takeWhile (fun c => c ≠ '/')).reverse
    if afterLast.contains ';' then
      path.take (path.length - afterLast.length +
        (afterLast.takeWhile (fun c => c ≠ ';')).length)
    else path
  else path.takeWhile (fun c => c ≠ ';')

/-- The registry label: `urlparse(url).netloc` plus the first 50 characters
of the path (fragment, query and params stripped as `urlparse` does). -/
def urlLabel (url : Str) : Str :=
  let rest := if "https://".toList.isPrefixOf url then url.drop 8 else url.drop 7
  let netloc := rest.takeWhile (fun c => c ≠ '/' && c ≠ '?' && c ≠ '#')
  let path := (rest.drop netloc.length).takeWhile (fun c => c ≠ '?' && c ≠ '#')
  netloc ++ (splitParamsPath path).take 50

/-- `_extract_sources`: find all URLs, deduplicate on the raw match keeping
first occurrences, strip one trailing punctuation character, and label. -/
def extract_sources (text : Str) : List (Str × Str) :=
  ((findUrls (text.length + 1) text).foldl
    (fun (acc : List Str × List (Str × Str)) url =>
      if acc.1.contains url then acc
      else
        let u := stripTrailingPunctOnce url
        (url :: acc.1, acc.2 ++ [(u, urlLabel u)]))
    ([], [])).2

/-! #### `_tag_sources` -/

def candidateKeywords : List Str :=
  ["research".toList, "analysis".toList, "report".toList, "study".toList,
   "project".toList, "draft".toList, "document".toList, "paper".toList,
   "article".toList, "summary".toList]

def legalKeywords : List Str :=
  [".gov.br".toList, ".senado".toList, ".camara".toList, "judicial".toList,
   "legal".toList, "court".toList, "law".toList]

def mediaKeywords : List Str :=
  ["news".toList, "folha".toList, "globo".toList, "estadao".toList,
   "uol".toList, "bbc".toList, "cnn".toList, "press".toList, "media".toList,
   "jornalismo".toList, "nytimes".toList, "wsj".toList, "reuters".toList]

def economicKeywords : List Str :=
  ["economic".toList, "financial".toList, "trade".toList, "economy".toList,
   "banco".toList, "bcb".toList, "imf".toList, "world bank".toList,
   "commerce".toList, "bloomberg".toList, "forbes".toList]

def internalKeywords : List Str :=
  ["note".toList, "transcript".toList, "internal".toList, "memo".toList,
   "meeting".toList, "summary".toList]

/-- The seven source categories of `_tag_sources`. -/
structure TagCats where
  used_in_drafts : List (Str × Str)
  candidate : List (Str × Str)
  legal : List (Str × Str)
  media : List (Str × Str)
  economic : List (Str × Str)
  internal : List (Str × Str)
  other : List (Str × Str)
deriving DecidableEq

instance : Inhabited TagCats := ⟨⟨[], [], [], [], [], [], []⟩⟩

/-- `any(kw in url_lower or kw in label_lower for kw in kws)`. -/
def kwHit (kws : List Str) (url_lower label_lower : Str) : Bool :=
  kws.any (fun kw => pyIn kw url_lower || pyIn kw label_lower)

/-- One source classified into its category (an empty `used_links` models
both `None` and the empty set, which Python treats alike as falsy). -/
def tagStep (used_links : List Str) (cats : TagCats) (p : Str × Str) : TagCats :=
  let url_lower := p.1.map Char.toLower
  let label_lower := p.2.map Char.toLower
  if !used_links.isEmpty && used_links.contains p.1 then
    { cats with used_in_drafts := cats.used_in_drafts ++ [p] }
  else if kwHit candidateKeywords url_lower label_lower then
    { cats with candidate := cats.candidate ++ [p] }
  else if kwHit legalKeywords url_lower label_lower then
    { cats with legal := cats.legal ++ [p] }
  else if kwHit mediaKeywords url_lower label_lower then
    { cats with media := cats.media ++ [p] }
  else if kwHit economicKeywords url_lower label_lower then
    { cats with economic := cats.economic ++ [p] }
  else if kwHit internalKeywords url_lower label_lower then
    { cats with internal := cats.internal ++ [p] }
  else { cats with other := cats.other ++ [p] }

def tag_sources (sources : List (Str × Str)) (used_links : List Str) : TagCats :=
  sources.foldl (tagStep used_links) ⟨[], [], [], [], [], [], []⟩

/-! #### `_reorganize_sources_section` -/

/-- Does `^={70}\nSOURCES REGISTRY\n={70}\n\n(.+)$` match at this line?
The bounded repetitions force lines of exactly 70 `=`; the `\n\n` requires a
following empty line; `(.+)$` (DOTALL) requires a nonempty remainder. -/
def registryHere (ls : List Str) : Bool :=
  match ls with
  | l0 :: l1 :: l2 :: l3 :: rest =>
    decide (l0 = rep 70 '=') && decide (l1 = "SOURCES REGISTRY".toList) &&
    decide (l2 = rep 70 '=') && decide (l3 = []) &&
    !(joinLines rest).isEmpty
  | _ => false

/-- `re.search` of the registry pattern: the first matching line index
(`^` under MULTILINE tries only line starts), with the capture's lines. -/
def findRegistry : Nat → List Str → Option (Nat × List Str)
  | _, [] => none
  | i, l :: ls =>
    if registryHere (l :: ls) then some (i, (l :: ls).drop 4)
    else findRegistry (i + 1) ls

/-- `https?://\S+` at the current position. -/
def matchHttpUrl (s : Str) : Option (Str × Str) :=
  if "https://".toList.isPrefixOf s then
    let run := (s.drop 8).takeWhile (fun c => !(isPySpace c))
    if run = [] then none
    else some ("https://".toList ++ run, s.drop (8 + run.length))
  else if "http://".toList.isPrefixOf s then
    let run := (s.drop 7).takeWhile (fun c => !(isPySpace c))
    if run = [] then none
    else some ("http://".toList ++ run, s.drop (7 + run.length))
  else none

/-- One match of `\[(\d+)\]\s+(.+?)\n\s+(https?://\S+)` at the current
position, for the non-degenerate whitespace layout the registry renderer
emits: each greedy `\s+` is taken maximally (a shorter run would resume on a
whitespace character where a non-whitespace one is required), and the lazy
label stops at the first newline.  Returns `(url, label)` stripped, and the
rest of the input after the match. -/
def matchEntry (s : Str) : Option ((Str × Str) × Str) :=
  match s with
  | '[' :: t =>
    let d := t.takeWhile Char.isDigit
    if d = [] then none
    else
      match t.drop d.length with
      | ']' :: u =>
        let w := u.takeWhile isPySpace
        if w = [] then none
        else
          let v := u.drop w.length
          let label := v.takeWhile (fun c => c ≠ '\n')
          if label = [] then none
          else
            match v.drop label.length with
            | '\n' :: x =>
              let w2 := x.takeWhile isPySpace
              if w2 = [] then none
              else
                (matchHttpUrl (x.drop w2.length)).map
                  (fun p => ((stripL p.1, stripL label), p.2))
            | _ => none
      | _ => none
  | _ => none

/-- `re.finditer` of the entry pattern: the collected `(url, label)` pairs. -/
def collectEntries : Nat → Str → List (Str × Str)
  | 0, _ => []
  | _ + 1, [] => []
  | fuel + 1, c :: t =>
    match matchEntry (c :: t) with
    | some (e, rest) => e :: collectEntries fuel rest
    | none => collectEntries fuel t

/-- One category block of the rebuilt registry: nothing when the category is
empty, otherwise the header, the entries sorted by lowercased label with the
running entry number, and a blank line. -/
def catBlock (acc : Str × Nat) (header : Str) (entries : List (Str × Str)) :
    Str × Nat :=
  if entries.isEmpty then acc
  else
    let sortedE := pySorted
      (fun a b => strLeB (a.2.map Char.toLower) (b.2.map Char.toLower)) entries
    let r := sortedE.foldl
      (fun (a : Str × Nat) e =>
        (a.1 ++ ('[' :: (natStr a.2 ++ (']' :: ' ' :: (e.2 ++ ('\n' ::
          ("    ".toList ++ (e.1 ++ "\n\n".toList))))))), a.2 + 1))
      (acc.1 ++ header ++ ":\n\n".toList, acc.2)
    (r.1 ++ ['\n'], r.2)

/-- The rebuilt `SOURCES REGISTRY` section in display order. -/
def newRegistrySection (cats : TagCats) : Str :=
  let h := rep 70 '=' ++ ('\n' :: ("SOURCES REGISTRY\n".toList ++
    (rep 70 '=' ++ "\n\n".toList)))
  (catBlock (catBlock (catBlock (catBlock (catBlock (catBlock (catBlock
    (h, 1)
    "**Used in Drafts**".toList cats.used_in_drafts)
    "**Candidates for Next Column**".toList cats.candidate)
    "Legal Sources".toList cats.legal)
    "Media Sources".toList cats.media)
    "Economic Sources".toList cats.economic)
    "Internal Documents".toList cats.internal)
    "Other Sources".toList cats.other).1

/-- `_reorganize_sources_section`: find the registry, parse its entries,
categorize, and replace everything from the registry header on with the
rebuilt section; without a registry match or parsed entries the text is
returned unchanged. -/
def reorganize_sources_section (text : Str) (used_links : List Str) : Str :=
  match findRegistry 0 (splitLines text) with
  | none => text
  | some (i, rest) =>
    let g1 := joinLines rest
    let sources := collectEntries (g1.length + 1) g1
    if sources.isEmpty then text
    else
      let pre := if i = 0 then []
        else joinLines ((splitLines text).take i) ++ ['\n']
      pre ++ newRegistrySection (tag_sources sources used_links)

/-! #### `_extract_deliverables` -/

/-- The default section-start patterns. -/
def defaultPatterns : List Str :=
  ["##".toList, "constraint".toList, "draft".toList, "decision".toList,
   "output".toList, "result".toList, "deliverable".toList]

/-- The loop state of `_extract_deliverables`. -/
structure DelivState where
  deliverables : List Str
  in_section : Bool
  current : List Str

/-- One line of the `_extract_deliverables` loop. -/
def delivStep (patterns : List Str) (st : DelivState) (line : Str) :
    DelivState :=
  let line_lower := line.map Char.toLower
  if patterns.any (fun p => pyIn (p.map Char.toLower) line_lower) then
    { deliverables := st.deliverables ++ st.current, in_section := true,
      current := [line] }
  else if st.in_section then
    if !(stripL line).isEmpty then { st with current := st.current ++ [line] }
    else if 1 < st.current.length then
      { deliverables := st.deliverables ++ st.current, in_section := false,
        current := [] }
    else st
  else st

/-- `_extract_deliverables` with an explicit pattern list (the builder always
passes one; `None` selects `defaultPatterns`). -/
def extract_deliverables (text : Str) (patterns : List Str) : Str :=
  let fin := (splitLines text).foldl (delivStep patterns) ⟨[], false, []⟩
  joinLines (fin.deliverables ++ fin.current)

/-! #### `extract_research_artifacts` -/

/-- The fate of one line: kept in the cleaned text, dropped outright, or
quarantined as an artifact string. -/
inductive LineFate where
  | keep : LineFate
  | drop : LineFate
  | capture : Str → LineFate
deriving DecidableEq

/-- `re.search` of a literal whose match runs to the end of the line
(patterns ending in `.*` or whose lookahead alternatives need a newline). -/
def searchToEOS (lit : Str) (l : Str) : Option Str := firstMatchSuffix lit l

/-- `re.search` of `\{\".*?\}`: the first `{"` followed by a closing brace
somewhere after it. -/
def searchJsonBrace (l : Str) : Option Str :=
  match firstMatchSuffix [lbrace, '"'] l with
  | some suf => (takeThroughChar rbrace (suf.drop 2)).map
      (fun mid => lbrace :: '"' :: mid)
  | none => none

/-- `re.search` of `\[LIT.*?\]`: the first occurrence of the opening literal
followed by a closing bracket somewhere after it. -/
def searchBracketGroup (opening : Str) (l : Str) : Option Str :=
  match firstMatchSuffix opening l with
  | some suf => (takeThroughChar ']' (suf.drop opening.length)).map
      (fun mid => opening ++ mid)
  | none => none

/-- The outcome of one matched artifact pattern: `none` falls through to the
next pattern (a match of 20 characters or fewer that is neither an appendix
header nor a JSON/Tool Call). -/
def artifactStep (label : Str) (grp : Str) : Option LineFate :=
  if is_appendix_header_line (grp.take 200) then some .drop
  else if label = "JSON/Tool Call".toList then some .drop
  else if 20 < grp.length then
    some (.capture ('[' :: (label ++ (']' :: ' ' ::
      (grp.take 200 ++ "...".toList)))))
  else none

/-- The six artifact patterns applied to the normalized line, in order. -/
def patternResults (nl : Str) : List (Str × Option Str) :=
  [("Search Fragment".toList, searchToEOS "[Search Query]".toList nl),
   ("JSON/Tool Call".toList, searchToEOS "[JSON/Tool Call]".toList nl),
   ("JSON/Tool Call".toList, searchJsonBrace nl),
   ("Image Reference".toList, searchBracketGroup "[Image".toList nl),
   ("Model Info".toList, searchBracketGroup "[GPT Model".toList nl),
   ("Citation Widget".toList, searchBracketGroup "[Citation Widget".toList nl)]

/-- First pattern whose outcome is decisive wins; no pattern ⇒ keep. -/
def foldPatterns : List (Str × Option Str) → LineFate
  | [] => .keep
  | (_, none) :: rest => foldPatterns rest
  | (label, some grp) :: rest =>
    match artifactStep label grp with
    | some fate => fate
    | none => foldPatterns rest

/-- The per-line decision of `extract_research_artifacts`. -/
def lineFate (l : Str) : LineFate :=
  let nl := l.filter (fun c => !(zeroWidthChar c))
  if is_appendix_header_line nl then .drop
  else if hasMatch matchJsonToolCallTag nl then .drop
  else foldPatterns (patternResults nl)

/-- `extract_research_artifacts`: kept lines rejoined, captured artifact
strings collected in order. -/
def extract_research_artifacts (text : Str) : Str × List Str :=
  let lines := splitLines text
  (joinLines (lines.filter (fun l => decide (lineFate l = .keep))),
   lines.filterMap (fun l =>
     match lineFate l with
     | .capture a => some a
     | _ => none))

/-! ### `config_schema.py` -/

/-- A validated column config: present keys of the JSON object are `some`.
`include_buckets` keeps the insertion order of `thread_filters.include`. -/
structure ColumnConfig where
  column_name : Option Str := none
  include_buckets : List (Str × List Str) := []
  exclude : List Str := []
  scope_router : Option Str := none
  do_not_repeat_rules : Option (List Str) := none
  mechanism_focus : Option Str := none
  evidence_vs_inference : Option Str := none
  stress_tests : Option (List Str) := none
deriving DecidableEq

instance : Inhabited ColumnConfig := ⟨{}⟩

/-- `matches_thread_filter`: exclusion first, then the first include bucket
one of whose terms occurs in the lowercased title. -/
def matches_thread_filter (title : Str) (config : ColumnConfig) :
    Bool × Option Str :=
  if title = [] then (false, none)
  else
    let tl := title.map Char.toLower
    if config.exclude.any (fun t => pyIn (t.map Char.toLower) tl) then
      (false, none)
    else
      match config.include_buckets.find?
        (fun b => b.2.any (fun t => pyIn (t.map Char.toLower) tl)) with
      | some b => (true, some b.1)
      | none => (false, none)

/-- `_get_short_tag`: first `_`-separated word of the bucket name, uppercased
and clipped to 10 characters; `OTHER` for a missing or empty result. -/
def get_short_tag (bucket : Option Str) : Str :=
  match bucket with
  | none => "OTHER".toList
  | some b =>
    if b = [] then "OTHER".toList
    else
      let tag := ((b.takeWhile (fun c => c ≠ '_')).map Char.toUpper).take 10
      if tag = [] then "OTHER".toList else tag

/-- `generate_control_layer`. -/
def generate_control_layer (config : ColumnConfig) : Str :=
  let l0 : List Str :=
    [rep 70 '=',
     "CONTROL LAYER — ".toList ++ config.column_name.getD "Report".toList,
     rep 70 '=', []]
  let l1 := l0 ++ (match config.scope_router with
    | some s => ["SCOPE ROUTER".toList, [], s, []]
    | none => [])
  let l2 := l1 ++ (match config.do_not_repeat_rules with
    | some rs => ["DO-NOT-REPEAT RULES".toList, []] ++
        rs.map (fun r => "• ".toList ++ r) ++ [[]]
    | none => [])
  let l3 := l2 ++ (match config.mechanism_focus with
    | some s => ["MECHANISM FOCUS (from OP v2)".toList, [], s, []]
    | none => [])
  let l4 := l3 ++ (match config.evidence_vs_inference with
    | some s => ["EVIDENCE VS INFERENCE".toList, [], s, []]
    | none => [])
  let l5 := l4 ++ (match config.stress_tests with
    | some ts => ["STRESS TESTS".toList, []] ++
        ts.map (fun t => "• ".toList ++ t) ++ [[]]
    | none => [])
  joinLines (l5 ++ [rep 70 '=', []])

/-- Python `s.split()[0]` on a string with a leading non-whitespace token
(the timestamp renderings this is applied to). -/
def firstTok (s : Str) : Str :=
  (s.dropWhile isPySpace).takeWhile (fun c => !(isPySpace c))

/-- `generate_completeness_check`, with the clock (`now`) and the local
timestamp renderer (`ts_to_local_str`) as environment parameters. -/
def generate_completeness_check (convs : List Conv) (tsLocal : Int → Str)
    (now : Int) : Str :=
  if convs.isEmpty then "No conversations found.".toList
  else
    let dates := (convs.map (fun c => coerce_create_time c.create_time)).filter
      (fun d => decide (d ≠ 0))
    match dates with
    | [] => "No date information available.".toList
    | d :: ds =>
      let latest := ds.foldl max d
      "Searched conversations up to ".toList ++ firstTok (tsLocal now) ++
      ".\nLast relevant match: ".toList ++ firstTok (tsLocal latest) ++
      ".\nRecent matches (< 7 days): ".toList ++
      natStr (dates.filter (fun x => decide (now - x < 7 * 86400))).length ++
      ".\nTotal conversations in dossier: ".toList ++ natStr convs.length ++
      ".".toList

/-! ### Working-index generation -/

/-- One timeline line:
`f"  - {date_str}: {title} (ID: {cid_label})\n"`. -/
def timelineLine (tsLocal : Int → Str) (c : Conv) : Str :=
  let it := conv_id_and_title c
  let ctime := coerce_create_time c.create_time
  let date_str := if ctime ≠ 0 then firstTok (tsLocal ctime)
    else "Unknown".toList
  let cid_label := match it.1 with
    | some x => x.take 8 ++ "...".toList
    | none => "unknown".toList
  "  - ".toList ++ date_str ++ (':' :: ' ' :: it.2) ++ " (ID: ".toList ++
    cid_label ++ ")\n".toList

def priorityKeywords : List Str :=
  ["draft".toList, "decision".toList, "deliverable".toList, "output".toList,
   "final".toList, "review".toList, "summary".toList, "analysis".toList]

/-- The priority score of one conversation: +2 per keyword in the title,
+3 per topic in the title, and a recency boost of `(30 - days_ago)/10`. -/
def convScore (now : Int) (topics : List Str) (c : Conv) : ℚ :=
  let tl := (conv_id_and_title c).2.map Char.toLower
  let s1 : ℚ := 2 * ((priorityKeywords.filter (fun kw => pyIn kw tl)).length : ℚ)
  let s2 : ℚ := 3 *
    ((topics.filter (fun tp => pyIn (tp.map Char.toLower) tl)).length : ℚ)
  let ctime := coerce_create_time c.create_time
  let s3 : ℚ :=
    if ctime ≠ 0 then
      let days_ago : ℚ := ((now : ℚ) - (ctime : ℚ)) / 86400
      if days_ago < 30 then (30 - days_ago) / 10 else 0
    else 0
  s1 + s2 + s3

/-- The priority-thread lines: positive-score conversations, stably sorted
by descending score, top 5, numbered from 1. -/
def priorityLines (tsLocal : Int → Str) (now : Int)
    (conversations : List Conv) (topics : List Str) : List Str :=
  let scored := conversations.filterMap (fun c =>
    let sc := convScore now topics c
    if 0 < sc then
      some (sc, (conv_id_and_title c).1, (conv_id_and_title c).2,
        coerce_create_time c.create_time)
    else none)
  let sortedS := pySorted (fun a b => decide (b.1 ≤ a.1)) scored
  (sortedS.take 5).enum.map (fun p =>
    let date_str := if p.2.2.2.2 ≠ 0 then firstTok (tsLocal p.2.2.2.2)
      else "Unknown".toList
    "  ".toList ++ natStr (p.1 + 1) ++ ". [".toList ++ date_str ++
      "] ".toList ++ p.2.2.2.1 ++ ['\n'])

/-- `f"{n:02d}"` for the section counter (always ≥ 1). -/
def pad2 (n : Nat) : Str := if n < 10 then '0' :: natStr n else natStr n

/-- Does `_generate_working_index` treat this line as a section header? -/
def isSectionLine (line : Str) : Bool :=
  "##".toList.isPrefixOf line || "===".toList.isPrefixOf line ||
    (let d := line.takeWhile Char.isDigit
     !d.isEmpty && decide ((line.drop d.length).head? = some '.'))

/-- `line.strip().lstrip("#").strip().lstrip("=").strip()`. -/
def sectionHeaderOf (line : Str) : Str :=
  stripL ((stripL ((stripL line).dropWhile (fun c => c = '#'))).dropWhile
    (fun c => c = '='))

/-- The `### Sections` entries: the counter advances on every header-shaped
line, but empty headers and the index's own header are not listed. -/
def sectionsIndex (text : Str) : List Str :=
  (((splitLines text).enum).foldl
    (fun (acc : List Str × Nat) li =>
      if isSectionLine li.2 then
        let num := acc.2 + 1
        let header := sectionHeaderOf li.2
        if header ≠ [] ∧ header ≠ "WORKING INDEX".toList then
          (acc.1 ++ ["  ".toList ++ pad2 num ++ ". Line ~".toList ++
            natStr li.1 ++ (':' :: ' ' :: header) ++ ['\n']], num)
        else (acc.1, num)
      else acc)
    ([], 0)).1

/-- `_generate_working_index`: the `## WORKING INDEX` header, the timeline
(latest 10), the priority threads (with topics), and the section map. -/
def generate_working_index (tsLocal : Int → Str) (now : Int) (text : Str)
    (conversations : List Conv) (topics : List Str) : List Str :=
  let idx0 : List Str := ["## WORKING INDEX\n\n".toList]
  let idx1 := if conversations.isEmpty then idx0 else
    idx0 ++ ["### Timeline\n\n".toList] ++
    ((pySorted (fun a b => decide (coerce_create_time b.create_time ≤
        coerce_create_time a.create_time)) conversations).take 10).map
      (timelineLine tsLocal) ++ ["\n".toList]
  let idx2 := if conversations.isEmpty || topics.isEmpty then idx1 else
    idx1 ++ ["### Priority Threads (Read These First)\n\n".toList] ++
    priorityLines tsLocal now conversations topics ++ ["\n".toList]
  idx2 ++ ["### Sections\n\n".toList] ++ sectionsIndex text ++
    ["\n---\n\n".toList]

/-- `_generate_working_index_with_tags` (the text and topic parameters are
unused by the source). -/
def generate_working_index_with_tags (tsLocal : Int → Str) (_txt : Str)
    (conversations : List Conv) (_topics : List Str)
    (config : Option ColumnConfig) : List Str × List Str :=
  if conversations.isEmpty then ([], [])
  else
    let threads := conversations.filterMap (fun c =>
      let it := conv_id_and_title c
      match it.1 with
      | some x =>
        if it.2 ≠ [] then
          let bucket := match config with
            | some cfg => (matches_thread_filter it.2 cfg).2
            | none => none
          some (x, it.2, coerce_create_time c.create_time,
            get_short_tag bucket)
        else none
      | none => none)
    let sortedT := pySorted (fun a b => decide (a.2.2.1 ≤ b.2.2.1)) threads
    let idx := ["PRIORITY THREADS (with category tags)\n".toList,
      rep 70 '=' ++ ['\n']] ++
      sortedT.map (fun t =>
        ('[' :: (t.2.2.2 ++ "] ".toList)) ++ t.2.1 ++ "\n  ID: ".toList ++
        t.1 ++ " | Created: ".toList ++ tsLocal t.2.2.1 ++ "\n\n".toList)
    let tags := (threads.map (fun t => t.2.2.2)).foldl
      (fun acc tg => if acc.contains tg then acc else acc ++ [tg]) []
    let cov := [('\n' :: rep 70 '='), "COVERAGE AUDIT".toList, rep 70 '=',
      "Included threads (total): ".toList ++ natStr threads.length] ++
      (pySorted strLeB tags).map (fun tg =>
        "  - [".toList ++ tg ++ "]: ".toList ++
        natStr ((threads.filter (fun t => decide (t.2.2.2 = tg))).length)) ++
      [[]]
    (idx, cov)

/-! ### `build_combined_dossier`, split-branch pipeline -/

/-- The artifact filter applied before the appendix is emitted. -/
def filterArtifacts (arts : List Str) : List Str :=
  arts.filter (fun a =>
    !(containsB "APPENDIX: RESEARCH LOG".toList a) &&
    !(containsB "RESEARCH LOG & TOOL ARTIFACTS".toList a) &&
    !(containsB "JSON/Tool Call".toList a))

/-- The fatal message of the empty-working-text check (with the source's
mojibake dash). -/
def dieMsg : Str :=
  "NO INCLUDED THREADS/SEGMENTS ".toList ++
  [Char.ofNat 0xE2, Char.ofNat 0x20AC, Char.ofNat 0x201D] ++
  " CHECK FILTERS/KEYWORDS/PATTERNS".toList

/-- The cleaning chain applied to the raw text, through the artifact
quarantine (dossier_builder.py lines 235-250). -/
def cleanedBody (raw : Str) (used_links : List Str) (dedup : Bool)
    (patterns : Option (List Str)) : Str × List Str :=
  let w1 := strip_tool_noise raw
  let w2 := strip_citation_markers w1
  let w3 := sanitize_openai_markup w2
  let w4 := strip_existing_appendix w3
  let w5 := remove_appendix_header_lines w4
  let w6 := replace_dead_citations w5 []
  let w7 := if dedup then deduplicate_blocks w6 200 else w6
  let w8 := match patterns with
    | some ps => extract_deliverables w7 ps
    | none => w7
  extract_research_artifacts (reorganize_sources_section w8 used_links)

/-- The appendix block emitted once at the very end when artifacts exist. -/
def appendixBlock (artifacts : List Str) : Str :=
  "\n\n".toList ++ rep 70 '=' ++ ('\n' :: appendixMarker) ++
  ('\n' :: rep 70 '=') ++ "\n\n".toList ++
  ("This section contains metadata, tool-call fragments, and provenance\ninformation from the research extraction process.\n\n").toList ++
  joinPara artifacts

/-- The assembled output before the appendix: index lines, the coverage
report (preceded by a newline when present), and the working text. -/
def assemblePre (idx cov : List Str) (working : Str) : Str :=
  idx.flatten ++ (if cov.isEmpty then [] else '\n' :: joinLines cov) ++
    ('\n' :: working)

/-- The final text: the pre-appendix assembly, the appendix block when
artifacts exist, and the final `_dedupe_appendix_header` safety pass. -/
def assembleFinal (idx cov : List Str) (working : Str)
    (artifacts : List Str) : Str :=
  dedupe_appendix_header (assemblePre idx cov working ++
    (if artifacts.isEmpty then [] else appendixBlock artifacts))

/-- The working-TXT branch of `build_combined_dossier` (lines 235-319): the
cleaning chain, the artifact filter, optional config front matter, the fatal
empty-text check, index generation, and final assembly.  Returns the final
text and the filtered artifact list. -/
def buildWorkingTxt (tsLocal : Int → Str) (now : Int) (raw : Str)
    (config : Option ColumnConfig) (used_links : List Str) (dedup : Bool)
    (patterns : Option (List Str)) (convs : List Conv)
    (selected : List Conv) (topics : List Str) :
    Except Str (Str × List Str) :=
  let wa := cleanedBody raw used_links dedup patterns
  let artifacts := filterArtifacts wa.2
  let working := match config with
    | some cfg =>
      generate_control_layer cfg ++ "COMPLETENESS CHECK\n".toList ++
      rep 70 '=' ++ ('\n' :: generate_completeness_check convs tsLocal now) ++
      ('\n' :: rep 70 '=') ++ "\n\n".toList ++ wa.1
    | none => wa.1
  if (stripL working).isEmpty then .error dieMsg
  else
    let idxCov := match config with
      | some cfg =>
        generate_working_index_with_tags tsLocal working selected topics
          (some cfg)
      | none => (generate_working_index tsLocal now working selected topics,
          [])
    .ok (assembleFinal idxCov.1 idxCov.2 working artifacts, artifacts)

/-! ### `_build_clean_txt` (raw TXT rendering) -/

/-- One conversation item of a rendered group. -/
structure Item where
  title : Str
  ctime : Int
  msgs : List Msg
deriving DecidableEq

instance : Inhabited Item := ⟨⟨[], 0, []⟩⟩

/-- Python `str.capitalize()` on ASCII role names. -/
def pyCapitalize (s : Str) : Str :=
  match s with
  | [] => []
  | c :: t => Char.toUpper c :: t.map Char.toLower

/-- One TOC group line and the carried line estimate. -/
def tocGroup (tsLocal : Int → Str) (acc : Str × Nat) (g : Str × List Item) :
    Str × Nat :=
  let items := g.2
  let root := items.headD default
  let root_title := if root.title = [] then "Untitled".toList else root.title
  let branch_count := items.length - 1
  let label1 := "Line ~".toList ++ natStr acc.2 ++ (':' :: ' ' :: root_title)
  let label2 := if 0 < branch_count then
      label1 ++ " (+".toList ++ natStr branch_count ++ " branch".toList ++
        (if branch_count ≠ 1 then "es".toList else []) ++ [')']
    else label1
  let label3 := label2 ++ " — ".toList ++ (tsLocal root.ctime).take 10
  let est0 := max 10 (root.msgs.length / 3)
  let est := items.tail.foldl (fun e it => e + max 8 (it.msgs.length / 5)) est0
  (acc.1 ++ "  ".toList ++ label3 ++ ['\n'], acc.2 + est + 3)

/-- `_generate_toc`. -/
def generate_toc (tsLocal : Int → Str) (groups : List (Str × List Item)) :
    Str :=
  "## TABLE OF CONTENTS\n".toList ++
    (groups.foldl (tocGroup tsLocal) ([], 10)).1 ++ ['\n']

/-- The rendering of one message. -/
def renderMsg (m : Msg) : Str :=
  pyCapitalize m.role ++ ":\n\n".toList ++ m.text ++ "\n\n".toList

/-- One rendered conversation group: section header, root messages, and
branches. -/
def renderGroup (conv_num : Nat) (g : Str × List Item) : Str :=
  let items := g.2
  let root := items.headD default
  let root_title := if root.title = [] then "Untitled".toList else root.title
  let head := ('\n' :: rep 70 '=') ++
    ('\n' :: (natStr conv_num ++ ('.' :: ' ' :: root_title))) ++
    ('\n' :: rep 70 '=') ++ "\n\n".toList
  let rootBody := if root.msgs.isEmpty then
      "[No messages in root conversation.]\n\n".toList
    else root.msgs.flatMap renderMsg
  let branches := items.tail.enum.flatMap (fun p =>
    let bt := if p.2.title = [] then "Untitled".toList else p.2.title
    ("\n--- Branch ".toList ++ natStr (p.1 + 1) ++ (':' :: ' ' :: bt) ++
      " ---\n\n".toList) ++
    (if p.2.msgs.isEmpty then "[No new messages in this branch.]\n\n".toList
     else p.2.msgs.flatMap renderMsg))
  head ++ rootBody ++ branches

/-- All sources collected message by message, in rendering order. -/
def allSources (groups : List (Str × List Item)) : List (Str × Str) :=
  groups.flatMap (fun g => g.2.flatMap (fun it =>
    it.msgs.flatMap (fun m => extract_sources m.text)))

/-- `_build_clean_txt`: header, TOC, rendered conversations, and the sources
registry. -/
def build_clean_txt (tsLocal : Int → Str) (now : Int) (root_path : Str)
    (groups : List (Str × List Item)) (topics : List Str) : Str :=
  let topic_label := if topics.isEmpty then "Dossier".toList
    else List.intercalate ", ".toList topics
  "DOSSIER: ".toList ++ topic_label ++
  ('\n' :: ("Generated: ".toList ++ tsLocal now)) ++
  ('\n' :: ("Source: ".toList ++ root_path)) ++ "\n\n".toList ++
  generate_toc tsLocal groups ++
  (groups.enum.flatMap (fun p => renderGroup (p.1 + 1) p.2)) ++
  sourcesRegistryBlock (allSources groups)

/-! ### A concrete build whose index injects the appendix marker -/

/-- A fixed local-time renderer (the real one is timezone-dependent). -/
def cTsLocal : Int → Str :=
  fun t => if t = 0 then [] else "2024-01-01 00:00:00".toList

/-- One conversation item whose title is the literal appendix marker. -/
def cItem : Item :=
  ⟨appendixMarker, 1700000000, [⟨0, "user".toList, "Hi.".toList⟩]⟩

def cGroups : List (Str × List Item) := [("g".toList, [cItem])]

/-- The raw TXT rendered for that conversation. -/
def cRaw : Str := build_clean_txt cTsLocal 1700000000 "/data".toList cGroups []

/-- The same conversation's record, as passed to index generation. -/
def cConv : Conv := { title := some appendixMarker,
                      create_time := some 1700000000 }

/-! ## Theorems -/

theorem collapseWsSM_nil (b : Bool) : collapseWsSM b [] = [] := rfl

theorem splitLines_ne_nil (s : Str) : splitLines s ≠ [] := by
  induction s with
  | nil => simp [splitLines]
  | cons c t ih =>
    simp only [splitLines]
    split
    · simp
    · cases h : splitLines t with
      | nil => simp
      | cons p ps => simp

theorem joinLines_splitLines (s : Str) : joinLines (splitLines s) = s := by
  induction s with
  | nil => rfl
  | cons c t ih =>
    simp only [splitLines]
    split
    · rename_i hc
      subst hc
      cases h : splitLines t with
      | nil => exact absurd h (splitLines_ne_nil t)
      | cons p ps =>
        rw [h] at ih
        simp only [joinLines]
        cases ps <;> simp_all [joinLines]
    · cases h : splitLines t with
      | nil => exact absurd h (splitLines_ne_nil t)
      | cons p ps =>
        rw [h] at ih
        cases ps <;> simp_all [joinLines]

/-- Every line produced by `splitLines` is newline-free. -/
theorem splitLines_no_newline (s : Str) :
    ∀ l ∈ splitLines s, '\n' ∉ l := by
  induction s with
  | nil => intro l hl; simp [splitLines] at hl; simp [hl]
  | cons c t ih =>
    intro l hl
    simp only [splitLines] at hl
    by_cases hc : c = '\n'
    · rw [if_pos hc, List.mem_cons] at hl
      rcases hl with hl | hl
      · simp [hl]
      · exact ih l hl
    · rw [if_neg hc] at hl
      cases h : splitLines t with
      | nil => exact absurd h (splitLines_ne_nil t)
      | cons p ps =>
        rw [h, List.mem_cons] at hl
        rcases hl with hl | hl
        · subst hl
          intro hmem
          rcases List.mem_cons.mp hmem with h1 | h2
          · exact hc h1.symm
          · exact ih p (by rw [h]; exact List.mem_cons_self p ps) h2
        · exact ih l (by rw [h]; exact List.mem_cons_of_mem p hl)

theorem lcp_le_min :
    ∀ a b : List (Str × Str),
      longest_common_prefix_len a b ≤ min a.length b.length
  | [], _ => by simp [longest_common_prefix_len]
  | _ :: _, [] => by simp [longest_common_prefix_len]
  | x :: xs, y :: ys => by
    simp only [longest_common_prefix_len]
    split
    · have := lcp_le_min xs ys
      simp only [List.length_cons]
      omega
    · omega

theorem lcp_take_eq :
    ∀ a b : List (Str × Str),
      a.take (longest_common_prefix_len a b) = b.take (longest_common_prefix_len a b)
  | [], b => by simp [longest_common_prefix_len]
  | _ :: _, [] => by simp [longest_common_prefix_len]
  | x :: xs, y :: ys => by
    simp only [longest_common_prefix_len]
    split
    · rename_i h
      simp [List.take_succ_cons, h, lcp_take_eq xs ys]
    · simp

theorem lcp_mismatch :
    ∀ a b : List (Str × Str),
      longest_common_prefix_len a b < min a.length b.length →
        a[longest_common_prefix_len a b]? ≠ b[longest_common_prefix_len a b]?
  | [], b => by simp [longest_common_prefix_len]
  | _ :: _, [] => by simp [longest_common_prefix_len]
  | x :: xs, y :: ys => by
    simp only [longest_common_prefix_len]
    split
    · rename_i h
      intro hlt
      have hlt' : longest_common_prefix_len xs ys < min xs.length ys.length := by
        simp only [List.length_cons] at hlt
        omega
      simpa [List.getElem?_cons_succ] using lcp_mismatch xs ys hlt'
    · rename_i h
      intro _
      simpa using h

theorem lcp_maximal :
    ∀ (a b : List (Str × Str)) (j : Nat),
      j ≤ min a.length b.length → a.take j = b.take j →
        j ≤ longest_common_prefix_len a b
  | _, _, 0 => by intro _ _; exact Nat.zero_le _
  | [], b, j + 1 => by simp
  | _ :: _, [], j + 1 => by simp
  | x :: xs, y :: ys, j + 1 => by
    intro hj htake
    simp only [List.take_succ_cons, List.cons.injEq] at htake
    simp only [longest_common_prefix_len, htake.1, if_pos]
    have : j ≤ longest_common_prefix_len xs ys := by
      refine lcp_maximal xs ys j ?_ htake.2
      simp only [List.length_cons] at hj
      omega
    omega

theorem lcp_self_append :
    ∀ a e : List (Str × Str), longest_common_prefix_len a (a ++ e) = a.length
  | [], e => by simp [longest_common_prefix_len]
  | x :: xs, e => by
    simp [longest_common_prefix_len, lcp_self_append xs e]

/-- C2: branch reconciliation returns exactly `branch[k:]` where `k` is the
length of the longest common prefix of the `(role, whitespace-normalized
text)` projections, computed index by index up to the first mismatch or the
end of the shorter list; in particular for `B = R' ++ extra` with `R'`
projecting equal to `R`, the result is exactly `extra`, unmodified and in
order. -/
theorem branch_reconciliation_correct :
    (∀ rm bm : List Msg,
        trim_branch_new_part rm bm
          = bm.drop (longest_common_prefix_len (rm.map projMsg) (bm.map projMsg))) ∧
    (∀ a b : List (Str × Str),
        longest_common_prefix_len a b ≤ min a.length b.length ∧
        a.take (longest_common_prefix_len a b) = b.take (longest_common_prefix_len a b) ∧
        (longest_common_prefix_len a b < min a.length b.length →
          a[longest_common_prefix_len a b]? ≠ b[longest_common_prefix_len a b]?) ∧
        (∀ j, j ≤ min a.length b.length → a.take j = b.take j →
          j ≤ longest_common_prefix_len a b)) ∧
    (∀ rm rpart extra : List Msg, rpart.map projMsg = rm.map projMsg →
        trim_branch_new_part rm (rpart ++ extra) = extra) := by
  refine ⟨fun rm bm => rfl, fun a b => ⟨lcp_le_min a b, lcp_take_eq a b,
    lcp_mismatch a b, fun j hj ht => lcp_maximal a b j hj ht⟩, ?_⟩
  intro rm rpart extra hproj
  have hlen : rpart.length = rm.length := by
    have := congrArg List.length hproj
    simpa using this
  simp only [trim_branch_new_part, List.map_append, hproj]
  rw [lcp_self_append]
  rw [List.drop_append_of_le_length (by simp [hlen])]
  simp [hlen]

/-- Witness for C2 at a concrete root, branch and extra suffix (the branch
copy of the root differs only in whitespace). -/
theorem branch_reconciliation_correct_witness :
    trim_branch_new_part
      [⟨1, "user".toList, "hi".toList⟩, ⟨2, "assistant".toList, "hello".toList⟩]
      ([⟨5, "user".toList, "  hi ".toList⟩, ⟨6, "assistant".toList, "hello".toList⟩]
        ++ [⟨7, "user".toList, "more".toList⟩])
      = [⟨7, "user".toList, "more".toList⟩] :=
  branch_reconciliation_correct.2.2
    [⟨1, "user".toList, "hi".toList⟩, ⟨2, "assistant".toList, "hello".toList⟩]
    [⟨5, "user".toList, "  hi ".toList⟩, ⟨6, "assistant".toList, "hello".toList⟩]
    [⟨7, "user".toList, "more".toList⟩]
    (by decide)

theorem setAdd_mem (acc : List Nat) (x j : Nat) :
    j ∈ setAdd acc x ↔ j ∈ acc ∨ j = x := by
  unfold setAdd
  split
  · rename_i h
    constructor
    · exact fun hj => Or.inl hj
    · rintro (hj | rfl)
      · exact hj
      · exact h
  · simp [List.mem_append]

theorem setAdd_nodup (acc : List Nat) (x : Nat) (h : acc.Nodup) :
    (setAdd acc x).Nodup := by
  unfold setAdd
  split
  · exact h
  · rename_i hx
    simpa [List.nodup_append, h] using hx

theorem foldl_setAdd_mem :
    ∀ (l : List Nat) (acc : List Nat) (j : Nat),
      j ∈ l.foldl setAdd acc ↔ j ∈ acc ∨ j ∈ l
  | [], acc, j => by simp
  | x :: xs, acc, j => by
    simp only [List.foldl_cons]
    rw [foldl_setAdd_mem xs (setAdd acc x) j, setAdd_mem]
    simp only [List.mem_cons]
    tauto

theorem foldl_setAdd_nodup :
    ∀ (l : List Nat) (acc : List Nat), acc.Nodup → (l.foldl setAdd acc).Nodup
  | [], acc, h => h
  | x :: xs, acc, h => foldl_setAdd_nodup xs (setAdd acc x) (setAdd_nodup acc x h)

theorem pyInsert_perm (le : α → α → Bool) :
    ∀ (l : List α) (x : α), List.Perm (pyInsert le l x) (x :: l)
  | [], x => List.Perm.refl _
  | y :: ys, x => by
    simp only [pyInsert]
    split
    · exact ((pyInsert_perm le ys x).cons y).trans (List.Perm.swap x y ys)
    · exact List.Perm.refl _

theorem pySorted_perm_aux (le : α → α → Bool) :
    ∀ (l acc : List α), List.Perm (l.foldl (pyInsert le) acc) (acc ++ l)
  | [], acc => by simp
  | x :: xs, acc => by
    simp only [List.foldl_cons]
    refine (pySorted_perm_aux le xs (pyInsert le acc x)).trans ?_
    have h1 : List.Perm (pyInsert le acc x) (x :: acc) := pyInsert_perm le acc x
    refine (h1.append_right xs).trans ?_
    exact List.perm_middle.symm

theorem pySorted_perm (le : α → α → Bool) (l : List α) :
    List.Perm (pySorted le l) l := by
  simpa using pySorted_perm_aux le l []

theorem pyInsert_pairwise (le : α → α → Bool)
    (htot : ∀ a b, le a b = true ∨ le b a = true)
    (htr : ∀ a b c, le a b = true → le b c = true → le a c = true) :
    ∀ (l : List α) (x : α), l.Pairwise (fun a b => le a b = true) →
      (pyInsert le l x).Pairwise (fun a b => le a b = true)
  | [], x, _ => by simp [pyInsert]
  | y :: ys, x, h => by
    rcases List.pairwise_cons.mp h with ⟨hy, hys⟩
    simp only [pyInsert]
    split
    · rename_i hyx
      refine List.pairwise_cons.mpr ⟨?_, pyInsert_pairwise le htot htr ys x hys⟩
      intro z hz
      have hz' : z ∈ x :: ys := (pyInsert_perm le ys x).mem_iff.mp hz
      rcases List.mem_cons.mp hz' with rfl | hz''
      · exact hyx
      · exact hy z hz''
    · rename_i hyx
      have hxy : le x y = true := by
        rcases htot x y with h' | h'
        · exact h'
        · exact absurd h' hyx
      refine List.pairwise_cons.mpr ⟨?_, h⟩
      intro z hz
      rcases List.mem_cons.mp hz with rfl | hz
      · exact hxy
      · exact htr x y z hxy (hy z hz)

theorem pySorted_pairwise (le : α → α → Bool)
    (htot : ∀ a b, le a b = true ∨ le b a = true)
    (htr : ∀ a b c, le a b = true → le b c = true → le a c = true)
    (l : List α) :
    (pySorted le l).Pairwise (fun a b => le a b = true) := by
  suffices h : ∀ (l acc : List α), acc.Pairwise (fun a b => le a b = true) →
      (l.foldl (pyInsert le) acc).Pairwise (fun a b => le a b = true) by
    exact h l [] (by simp)
  intro l
  induction l with
  | nil => intro acc h; exact h
  | cons x xs ih =>
    intro acc h
    exact ih (pyInsert le acc x) (pyInsert_pairwise le htot htr acc x h)

theorem enumFrom_fst_lt :
    ∀ (n : Nat) (l : List α) (p : Nat × α), p ∈ List.enumFrom n l → p.1 < n + l.length
  | n, [], p => by simp
  | n, x :: xs, p => by
    intro hp
    rcases List.mem_cons.mp hp with rfl | hp
    · simp
    · have := enumFrom_fst_lt (n + 1) xs p hp
      simp only [List.length_cons]
      omega

theorem enumFrom_snd_mem :
    ∀ (n : Nat) (l : List α) (p : Nat × α), p ∈ List.enumFrom n l → p.2 ∈ l
  | _, [], p => by simp
  | n, x :: xs, p => by
    intro hp
    rcases List.mem_cons.mp hp with rfl | hp
    · simp
    · exact List.mem_cons_of_mem x (enumFrom_snd_mem (n + 1) xs p hp)

theorem excerptHits_lt (msgs : List Msg) (pattern : Str → Bool) :
    ∀ i ∈ excerptHits msgs pattern, i < msgs.length := by
  intro i hi
  simp only [excerptHits, List.mem_map] at hi
  rcases hi with ⟨p, hp, rfl⟩
  have := enumFrom_fst_lt 0 msgs p (List.mem_filter.mp hp).1
  simpa using this

theorem excerptKeep_mem_aux (c n : Nat) :
    ∀ (hits : List Nat) (acc : List Nat) (j : Nat),
      (j ∈ hits.foldl
          (fun acc i => (List.range' (i - c) (min n (i + c + 1) - (i - c))).foldl setAdd acc)
          acc) ↔
        j ∈ acc ∨ ∃ i ∈ hits, i - c ≤ j ∧ j < (i - c) + (min n (i + c + 1) - (i - c))
  | [], acc, j => by simp
  | i :: is, acc, j => by
    simp only [List.foldl_cons]
    rw [excerptKeep_mem_aux c n is _ j, foldl_setAdd_mem, List.mem_range'_1]
    simp only [List.mem_cons]
    constructor
    · rintro (( h | h) | ⟨i', hi', h1, h2⟩)
      · exact Or.inl h
      · exact Or.inr ⟨i, Or.inl rfl, h.1, h.2⟩
      · exact Or.inr ⟨i', Or.inr hi', h1, h2⟩
    · rintro (h | ⟨i', hi' | hi', h1, h2⟩)
      · exact Or.inl (Or.inl h)
      · subst hi'
        exact Or.inl (Or.inr ⟨h1, h2⟩)
      · exact Or.inr ⟨i', hi', h1, h2⟩

theorem excerptKeep_nodup (msgs : List Msg) (pattern : Str → Bool) (c : Nat) :
    (excerptKeep msgs pattern c).Nodup := by
  unfold excerptKeep
  generalize excerptHits msgs pattern = hits
  suffices h : ∀ (hits : List Nat) (acc : List Nat), acc.Nodup →
      (hits.foldl
        (fun acc i =>
          (List.range' (i - c) (min msgs.length (i + c + 1) - (i - c))).foldl setAdd acc)
        acc).Nodup by
    exact h hits [] (by simp)
  intro hits
  induction hits with
  | nil => intro acc h; exact h
  | cons i is ih =>
    intro acc h
    exact ih _ (foldl_setAdd_nodup _ acc h)

theorem excerpt_eq_spec (msgs : List Msg) (pattern : Str → Bool) (context : Nat) :
    excerpt_messages msgs pattern context = excerptSpec msgs pattern context := by
  by_cases hempty : msgs.isEmpty
  · have hnil : msgs = [] := List.isEmpty_iff.mp hempty
    subst hnil
    simp [excerpt_messages, excerptSpec]
  · by_cases hh : (excerptHits msgs pattern).isEmpty
    · have hnil : excerptHits msgs pattern = [] := List.isEmpty_iff.mp hh
      simp [excerpt_messages, excerptSpec, hempty, hh, hnil]
    · simp only [excerpt_messages, if_neg hempty, if_neg hh]
      congr 1
      have hsorted₁ :
          (pySorted (fun a b => decide (a ≤ b)) (excerptKeep msgs pattern context)).Pairwise
            (· ≤ ·) := by
        refine (pySorted_pairwise _ ?_ ?_ _).imp ?_
        · intro a b
          rcases Nat.le_total a b with h | h
          · exact Or.inl (by simpa using h)
          · exact Or.inr (by simpa using h)
        · intro a b cc h1 h2
          simp only [decide_eq_true_eq] at h1 h2 ⊢
          omega
        · intro a b h
          simpa using h
      have hsorted₂ :
          ((List.range msgs.length).filter
              (fun j => (excerptHits msgs pattern).any
                (fun i => i - context ≤ j && j < i + context + 1))).Pairwise (· ≤ ·) := by
        refine ((List.pairwise_lt_range msgs.length).sublist (List.filter_sublist _)).imp ?_
        exact fun h => Nat.le_of_lt h
      have hnodup₁ :
          (pySorted (fun a b => decide (a ≤ b)) (excerptKeep msgs pattern context)).Nodup :=
        (pySorted_perm _ _).nodup_iff.mpr (excerptKeep_nodup msgs pattern context)
      have hnodup₂ :
          ((List.range msgs.length).filter
              (fun j => (excerptHits msgs pattern).any
                (fun i => i - context ≤ j && j < i + context + 1))).Nodup :=
        (List.nodup_range msgs.length).filter _
      have hmem : ∀ j,
          j ∈ pySorted (fun a b => decide (a ≤ b)) (excerptKeep msgs pattern context) ↔
            j ∈ (List.range msgs.length).filter
              (fun j => (excerptHits msgs pattern).any
                (fun i => i - context ≤ j && j < i + context + 1)) := by
        intro j
        rw [(pySorted_perm _ _).mem_iff]
        unfold excerptKeep
        rw [excerptKeep_mem_aux context msgs.length (excerptHits msgs pattern) [] j]
        simp only [List.not_mem_nil, false_or]
        rw [List.mem_filter, List.mem_range, List.any_eq_true]
        constructor
        · rintro ⟨i, hi, h1, h2⟩
          have hlt := excerptHits_lt msgs pattern i hi
          refine ⟨by omega, ⟨i, hi, ?_⟩⟩
          simp only [Bool.and_eq_true, decide_eq_true_eq]
          omega
        · rintro ⟨hj, ⟨i, hi, hcond⟩⟩
          simp only [Bool.and_eq_true, decide_eq_true_eq] at hcond
          have hlt := excerptHits_lt msgs pattern i hi
          exact ⟨i, hi, by omega, by omega⟩
      have hperm :
          List.Perm (pySorted (fun a b => decide (a ≤ b)) (excerptKeep msgs pattern context))
            ((List.range msgs.length).filter
              (fun j => (excerptHits msgs pattern).any
                (fun i => i - context ≤ j && j < i + context + 1))) := by
        exact (List.perm_ext_iff_of_nodup hnodup₁ hnodup₂).mpr hmem
      exact List.eq_of_perm_of_sorted hperm hsorted₁ hsorted₂

/-- C7: the excerpt operation returns exactly the subsequence of `msgs` at the
union of the context windows `[i - context, i + context]` (clamped to bounds)
around the pattern-hit indices, in original order and without duplicates; when
no message matches, the result is the empty list. -/
theorem excerpt_messages_correct :
    (∀ (msgs : List Msg) (pattern : Str → Bool) (context : Nat),
        excerpt_messages msgs pattern context = excerptSpec msgs pattern context) ∧
    (∀ (msgs : List Msg) (pattern : Str → Bool) (context : Nat),
        (∀ m ∈ msgs, pattern m.text = false) →
          excerpt_messages msgs pattern context = []) := by
  refine ⟨excerpt_eq_spec, ?_⟩
  intro msgs pattern context hfalse
  have hhits : excerptHits msgs pattern = [] := by
    unfold excerptHits
    rw [List.map_eq_nil_iff, List.filter_eq_nil_iff]
    intro p hp
    have := hfalse p.2 (enumFrom_snd_mem 0 msgs p hp)
    simp [this]
  by_cases hempty : msgs.isEmpty
  · simp [excerpt_messages, hempty]
  · simp [excerpt_messages, hempty, hhits]

/-- Witness for C7: the spec's example (ten messages, pattern hitting the
sixth, context 1) and the empty-hit case. -/
theorem excerpt_messages_correct_witness :
    excerpt_messages
      [⟨0, "user".toList, "zero".toList⟩, ⟨1, "user".toList, "one".toList⟩,
       ⟨2, "user".toList, "two".toList⟩, ⟨3, "user".toList, "three".toList⟩,
       ⟨4, "user".toList, "four".toList⟩, ⟨5, "user".toList, "five".toList⟩,
       ⟨6, "user".toList, "six".toList⟩, ⟨7, "user".toList, "seven".toList⟩,
       ⟨8, "user".toList, "eight".toList⟩, ⟨9, "user".toList, "nine".toList⟩]
      (fun t => decide (t = "five".toList)) 1
      = [⟨4, "user".toList, "four".toList⟩, ⟨5, "user".toList, "five".toList⟩,
         ⟨6, "user".toList, "six".toList⟩] ∧
    excerpt_messages [⟨0, "user".toList, "zero".toList⟩]
      (fun t => decide (t = "absent".toList)) 1 = [] :=
  ⟨(excerpt_messages_correct.1 _ _ 1).trans (by decide),
   excerpt_messages_correct.2 _ _ 1 (by decide)⟩

theorem find?_append_single (p : α → Bool) :
    ∀ (l : List α) (x : α),
      (l ++ [x]).find? p =
        (match l.find? p with
         | some y => some y
         | none => if p x then some x else none)
  | [], x => by
    cases h : p x <;> simp [List.find?, h]
  | y :: ys, x => by
    by_cases h : p y = true
    · rw [List.cons_append, List.find?_cons_of_pos _ h, List.find?_cons_of_pos _ h]
    · rw [List.cons_append, List.find?_cons_of_neg _ (by simpa using h),
        List.find?_cons_of_neg _ (by simpa using h), find?_append_single p ys x]

theorem mem_convIds_iff (l : List Conv) (k : Str) :
    k ∈ convIds l ↔ ∃ x ∈ l, hasId k x = true := by
  rw [convIds, List.mem_filterMap]
  constructor
  · rintro ⟨c, hc, hidc⟩
    exact ⟨c, hc, by simp [hasId, hidc]⟩
  · rintro ⟨c, hc, hidc⟩
    refine ⟨c, hc, ?_⟩
    simpa [hasId] using hidc

theorem convIds_append_single (done : List Conv) (c : Conv) :
    convIds (done ++ [c])
      = convIds done
        ++ (match (conv_id_and_title c).1 with | some k => [k] | none => []) := by
  unfold convIds
  rw [List.filterMap_append]
  cases h : (conv_id_and_title c).1 <;> simp [h]


theorem find?_append_single_neg (p : α → Bool) (l : List α) (x : α)
    (h : p x = false) : (l ++ [x]).find? p = l.find? p := by
  rw [find?_append_single]
  cases hf : l.find? p
  · simp [h]
  · rfl

theorem find?_append_single_none (p : α → Bool) (l : List α) (x : α)
    (hl : l.find? p = none) (h : p x = true) : (l ++ [x]).find? p = some x := by
  rw [find?_append_single, hl]
  simp [h]

theorem find?_append_single_some (p : α → Bool) (l : List α) (x y : α)
    (hl : l.find? p = some y) : (l ++ [x]).find? p = some y := by
  rw [find?_append_single, hl]

theorem convMapStep_inv (done : List Conv) (byId : List (Str × Conv))
    (dups : List Str) (c : Conv) (h : ConvMapInv done byId dups) :
    ConvMapInv (done ++ [c]) (convMapStep (byId, dups) c).1
      (convMapStep (byId, dups) c).2 := by
  obtain ⟨h1, h2, h3, h4⟩ := h
  cases hid : (conv_id_and_title c).1 with
  | none =>
    have hstep : convMapStep (byId, dups) c = (byId, dups) := by
      simp [convMapStep, hid]
    rw [hstep]
    have hids : convIds (done ++ [c]) = convIds done := by
      rw [convIds_append_single, hid]
      simp
    refine ⟨h1, ?_, ?_, ?_⟩
    · intro k cc
      rw [h2 k cc, find?_append_single_neg _ done c (by simp [hasId, hid])]
    · intro k
      rw [hids]
      exact h3 k
    · intro s
      rw [hids]
      exact h4 s
  | some k0 =>
    have hids : convIds (done ++ [c]) = convIds done ++ [k0] := by
      rw [convIds_append_single, hid]
    by_cases hmem : k0 ∈ byId.map Prod.fst
    · have hcont : (byId.map Prod.fst).contains k0 = true := List.elem_iff.mpr hmem
      have hstep : convMapStep (byId, dups) c
          = (byId, if dups.contains k0 then dups else dups ++ [k0]) := by
        have hm : convMapStep (byId, dups) c
            = (if (byId.map Prod.fst).contains k0 then
                (byId, if dups.contains k0 then dups else dups ++ [k0])
              else (byId ++ [(k0, c)], dups)) := by
          unfold convMapStep
          rw [hid]
        rw [hm, hcont]
        simp
      rw [hstep]
      refine ⟨h1, ?_, ?_, ?_⟩
      · intro k cc
        rw [h2 k cc]
        by_cases heq : k = k0
        · rw [heq]
          have hex : ∃ x ∈ done, hasId k0 x = true :=
            (mem_convIds_iff done k0).mp ((h3 k0).mp hmem)
          have hsome : (done.find? (hasId k0)).isSome := List.find?_isSome.mpr hex
          obtain ⟨y, hy⟩ := Option.isSome_iff_exists.mp hsome
          rw [hy, find?_append_single_some _ done c y hy]
        · have hfalse : hasId k c = false := by
            rw [hasId, hid]
            simp only [decide_eq_false_iff_not]
            intro hsome
            exact heq (Option.some.inj hsome).symm
          rw [find?_append_single_neg _ done c hfalse]
      · intro k
        rw [hids, List.mem_append, List.mem_singleton]
        constructor
        · intro hk
          exact Or.inl ((h3 k).mp hk)
        · rintro (hk | rfl)
          · exact (h3 k).mpr hk
          · exact hmem
      · intro s
        rw [hids, List.count_append]
        by_cases heq : s = k0
        · rw [heq]
          have h1le : 1 ≤ (convIds done).count k0 :=
            List.count_pos_iff.mpr ((h3 k0).mp hmem)
          have hone : List.count k0 [k0] = 1 := by simp
          rw [hone]
          constructor
          · intro _
            omega
          · intro _
            split
            · rename_i hd
              exact List.elem_iff.mp hd
            · exact List.mem_append.mpr (Or.inr (by simp))
        · have hs0 : List.count s [k0] = 0 := by
            rw [List.count_eq_zero]
            simp [heq]
          have hdups' : s ∈ (if dups.contains k0 = true then dups else dups ++ [k0])
              ↔ s ∈ dups := by
            split
            · exact Iff.rfl
            · rw [List.mem_append, List.mem_singleton]
              simp [heq]
          rw [hs0, hdups', h4 s]
          omega
    · have hcont : (byId.map Prod.fst).contains k0 = false :=
        Bool.eq_false_iff.mpr (fun hc => hmem (List.elem_iff.mp hc))
      have hstep : convMapStep (byId, dups) c = (byId ++ [(k0, c)], dups) := by
        have hm : convMapStep (byId, dups) c
            = (if (byId.map Prod.fst).contains k0 then
                (byId, if dups.contains k0 then dups else dups ++ [k0])
              else (byId ++ [(k0, c)], dups)) := by
          unfold convMapStep
          rw [hid]
        rw [hm, hcont]
        simp
      rw [hstep]
      have hnotin : k0 ∉ convIds done := fun hin => hmem ((h3 k0).mpr hin)
      have hfindnone : done.find? (hasId k0) = none :=
        List.find?_eq_none.mpr
          (fun x hx hpx => hnotin ((mem_convIds_iff done k0).mpr ⟨x, hx, hpx⟩))
      refine ⟨?_, ?_, ?_, ?_⟩
      · rw [List.map_append]
        simp only [List.map_cons, List.map_nil]
        refine List.Nodup.append h1 (by simp) ?_
        intro a ha hb
        rw [List.mem_singleton] at hb
        subst hb
        exact hmem ha
      · intro k cc
        rw [List.mem_append, List.mem_singleton, h2 k cc]
        by_cases heq : k = k0
        · rw [heq, hfindnone,
            find?_append_single_none _ done c hfindnone (by simp [hasId, hid])]
          constructor
          · rintro (hcc | hcc)
            · exact absurd hcc (by simp)
            · rw [Prod.mk.injEq] at hcc
              rw [hcc.2]
          · intro hcc
            right
            rw [Prod.mk.injEq]
            exact ⟨rfl, (Option.some.inj hcc).symm⟩
        · have hfalse : hasId k c = false := by
            rw [hasId, hid]
            simp only [decide_eq_false_iff_not]
            intro hsome
            exact heq (Option.some.inj hsome).symm
          rw [find?_append_single_neg _ done c hfalse]
          constructor
          · rintro (hcc | hcc)
            · exact hcc
            · rw [Prod.mk.injEq] at hcc
              exact absurd hcc.1 heq
          · exact fun hcc => Or.inl hcc
      · intro k
        rw [hids, List.map_append]
        simp only [List.map_cons, List.map_nil, List.mem_append, List.mem_singleton]
        constructor
        · rintro (hk | rfl)
          · exact Or.inl ((h3 k).mp hk)
          · exact Or.inr rfl
        · rintro (hk | rfl)
          · exact Or.inl ((h3 k).mpr hk)
          · exact Or.inr rfl
      · intro s
        rw [hids, List.count_append]
        by_cases heq : s = k0
        · have hc0 : (convIds done).count k0 = 0 := List.count_eq_zero.mpr hnotin
          have hone : List.count k0 [k0] = 1 := by simp
          rw [heq, hc0, hone, h4 k0, hc0]
          omega
        · have hs0 : List.count s [k0] = 0 := by
            rw [List.count_eq_zero]
            simp [heq]
          rw [hs0, h4 s]
          omega

theorem convMap_fold_inv :
    ∀ (rest done : List Conv) (byId : List (Str × Conv)) (dups : List Str),
      ConvMapInv done byId dups →
      ConvMapInv (done ++ rest) (rest.foldl convMapStep (byId, dups)).1
        (rest.foldl convMapStep (byId, dups)).2
  | [], done, byId, dups, h => by simpa using h
  | c :: rest, done, byId, dups, h => by
    have hstep := convMapStep_inv done byId dups c h
    have hrec := convMap_fold_inv rest (done ++ [c]) (convMapStep (byId, dups) c).1
      (convMapStep (byId, dups) c).2 hstep
    rw [List.append_assoc] at hrec
    simpa using hrec

theorem convMap_inv_final (convs : List Conv) :
    ConvMapInv convs (convs.foldl convMapStep ([], [])).1
      (convs.foldl convMapStep ([], [])).2 := by
  have hbase : ConvMapInv [] ([] : List (Str × Conv)) ([] : List Str) := by
    refine ⟨by simp, ?_, ?_, ?_⟩
    · intro k c
      simp
    · intro k
      simp [convIds]
    · intro s
      simp [convIds]
  have := convMap_fold_inv convs [] [] [] hbase
  simpa using this

/-- C10: building the conversation map by id is fatal on duplicates: it
returns an error listing every duplicated id exactly when some non-empty id
occurs at least twice; otherwise it returns a map with one entry per distinct
id, keeping the first record with that id and skipping records with no id. -/
theorem build_conversation_map_correct (convs : List Conv) :
    ((∃ e, build_conversation_map_by_id convs = .error e) ↔
      ∃ k, 2 ≤ (convIds convs).count k) ∧
    (∀ byId, build_conversation_map_by_id convs = .ok byId →
      (byId.map Prod.fst).Nodup ∧
      (∀ k, k ∈ byId.map Prod.fst ↔ k ∈ convIds convs) ∧
      ∀ k c, (k, c) ∈ byId ↔ convs.find? (hasId k) = some c) ∧
    (∀ e, build_conversation_map_by_id convs = .error e →
      e = "Duplicate conversation ID(s) found in export:\n".toList
          ++ joinLines (pySorted strLeB (dupIds convs)) ∧
      ∀ k, k ∈ dupIds convs ↔ 2 ≤ (convIds convs).count k) := by
  obtain ⟨h1, h2, h3, h4⟩ := convMap_inv_final convs
  by_cases hE : (convs.foldl convMapStep ([], [])).2.isEmpty
  · have hbuild : build_conversation_map_by_id convs
        = .ok (convs.foldl convMapStep ([], [])).1 := by
      unfold build_conversation_map_by_id
      rw [hE]
      rfl
    have hnil : (convs.foldl convMapStep ([], [])).2 = [] :=
      List.isEmpty_iff.mp hE
    refine ⟨?_, ?_, ?_⟩
    · constructor
      · rintro ⟨e, he⟩
        rw [hbuild] at he
        exact absurd he (by simp)
      · rintro ⟨k, hk⟩
        have : k ∈ (convs.foldl convMapStep ([], [])).2 := (h4 k).mpr hk
        rw [hnil] at this
        exact absurd this (by simp)
    · intro byId hok
      rw [hbuild] at hok
      have : (convs.foldl convMapStep ([], [])).1 = byId := Except.ok.inj hok
      subst this
      exact ⟨h1, h3, h2⟩
    · intro e he
      rw [hbuild] at he
      exact absurd he (by simp)
  · have hbuild : build_conversation_map_by_id convs
        = .error ("Duplicate conversation ID(s) found in export:\n".toList
            ++ joinLines (pySorted strLeB (convs.foldl convMapStep ([], [])).2)) := by
      unfold build_conversation_map_by_id
      cases hE2 : (convs.foldl convMapStep ([], [])).2.isEmpty
      · rfl
      · exact absurd hE2 hE
    have hne : (convs.foldl convMapStep ([], [])).2 ≠ [] := by
      intro hc
      exact hE (by rw [hc]; rfl)
    refine ⟨?_, ?_, ?_⟩
    · constructor
      · intro _
        rcases List.exists_mem_of_ne_nil _ hne with ⟨s, hs⟩
        exact ⟨s, (h4 s).mp hs⟩
      · intro _
        exact ⟨_, hbuild⟩
    · intro byId hok
      rw [hbuild] at hok
      exact absurd hok (by simp)
    · intro e he
      rw [hbuild] at he
      have he' := Except.error.inj he
      exact ⟨he'.symm, h4⟩

/-- Witness for C10: a concrete duplicated id makes the build fail, and a
duplicate-free list yields a map with duplicate-free keys. -/
theorem build_conversation_map_correct_witness :
    (build_conversation_map_by_id
        [{ id := some "a".toList }, { title := some "x".toList },
         { id := some "a".toList }]).toOption = none ∧
    ([("b".toList, ({ id := some "b".toList, title := some "T".toList } : Conv)),
      ("c".toList, ({ id := some "c".toList, title := some "U".toList } : Conv))].map
        Prod.fst).Nodup := by
  constructor
  · obtain ⟨e, he⟩ :=
      (build_conversation_map_correct
        [{ id := some "a".toList }, { title := some "x".toList },
         { id := some "a".toList }]).1.mpr ⟨"a".toList, by decide⟩
    rw [he]
    rfl
  · exact ((build_conversation_map_correct
      [{ id := some "b".toList, title := some "T".toList },
       { id := some "c".toList, title := some "U".toList }]).2.1
      _ (by rfl)).1

theorem strLeB_cons_iff (a b : Char) (as bs : Str) :
    strLeB (a :: as) (b :: bs) = true ↔
      a.toNat < b.toNat ∨ (a.toNat = b.toNat ∧ strLeB as bs = true) := by
  simp only [strLeB]
  by_cases h1 : a.toNat < b.toNat
  · simp [h1]
  · by_cases h2 : b.toNat < a.toNat
    · rw [if_neg h1, if_pos h2]
      constructor
      · intro h
        simp at h
      · rintro (h | ⟨h, _⟩)
        · exact absurd h h1
        · exact absurd h2 (by omega)
    · have heq : a.toNat = b.toNat := by omega
      rw [if_neg h1, if_neg h2]
      simp [heq]

theorem strLeB_refl : ∀ a : Str, strLeB a a = true
  | [] => rfl
  | c :: cs => by
    rw [strLeB_cons_iff]
    exact Or.inr ⟨rfl, strLeB_refl cs⟩

theorem strLeB_total : ∀ a b : Str, strLeB a b = true ∨ strLeB b a = true
  | [], _ => Or.inl rfl
  | _ :: _, [] => Or.inr rfl
  | a :: as, b :: bs => by
    rw [strLeB_cons_iff, strLeB_cons_iff]
    rcases Nat.lt_trichotomy a.toNat b.toNat with h | h | h
    · exact Or.inl (Or.inl h)
    · rcases strLeB_total as bs with h' | h'
      · exact Or.inl (Or.inr ⟨h, h'⟩)
      · exact Or.inr (Or.inr ⟨h.symm, h'⟩)
    · exact Or.inr (Or.inl h)

theorem strLeB_trans : ∀ a b c : Str,
    strLeB a b = true → strLeB b c = true → strLeB a c = true
  | [], _, _ => by
    intro _ _
    rfl
  | _ :: _, [], _ => by
    intro h _
    exact absurd h (by simp [strLeB])
  | _ :: _, _ :: _, [] => by
    intro _ h
    exact absurd h (by simp [strLeB])
  | a :: as, b :: bs, c :: cs => by
    rw [strLeB_cons_iff, strLeB_cons_iff, strLeB_cons_iff]
    rintro (h1 | ⟨h1, h1'⟩) (h2 | ⟨h2, h2'⟩)
    · exact Or.inl (by omega)
    · exact Or.inl (by omega)
    · exact Or.inl (by omega)
    · exact Or.inr ⟨by omega, strLeB_trans as bs cs h1' h2'⟩

theorem charEq_of_toNat_eq (a b : Char) (h : a.toNat = b.toNat) : a = b :=
  Char.ofNat_toNat a ▸ Char.ofNat_toNat b ▸ congrArg Char.ofNat h

theorem strLeB_antisymm : ∀ a b : Str,
    strLeB a b = true → strLeB b a = true → a = b
  | [], [], _, _ => rfl
  | [], _ :: _, _, h => by simp [strLeB] at h
  | _ :: _, [], h, _ => by simp [strLeB] at h
  | a :: as, b :: bs, h1, h2 => by
    rw [strLeB_cons_iff] at h1 h2
    have hval : a.toNat = b.toNat := by
      rcases h1 with h1 | ⟨h1, _⟩ <;> rcases h2 with h2 | ⟨h2, _⟩ <;> omega
    have hchar : a = b := charEq_of_toNat_eq a b hval
    rcases h1 with h1 | ⟨_, h1'⟩
    · omega
    · rcases h2 with h2 | ⟨_, h2'⟩
      · omega
      · rw [hchar, strLeB_antisymm as bs h1' h2']

theorem pairLeB_total (p q : Str × Str) :
    pairLeB p q = true ∨ pairLeB q p = true := by
  unfold pairLeB
  by_cases h : p.1 = q.1
  · rw [if_pos h, if_pos h.symm]
    exact strLeB_total p.2 q.2
  · rw [if_neg h, if_neg (fun hc => h hc.symm)]
    exact strLeB_total p.1 q.1

theorem pairLeB_trans (p q r : Str × Str) :
    pairLeB p q = true → pairLeB q r = true → pairLeB p r = true := by
  unfold pairLeB
  intro h1 h2
  by_cases hpq : p.1 = q.1
  · rw [if_pos hpq] at h1
    by_cases hqr : q.1 = r.1
    · rw [if_pos hqr] at h2
      rw [if_pos (hpq.trans hqr)]
      exact strLeB_trans _ _ _ h1 h2
    · rw [if_neg hqr] at h2
      rw [if_neg (by rw [hpq]; exact hqr), hpq]
      exact h2
  · rw [if_neg hpq] at h1
    by_cases hqr : q.1 = r.1
    · rw [if_pos hqr] at h2
      rw [if_neg (fun hc => hpq (hc.trans hqr.symm)), ← hqr]
      exact h1
    · rw [if_neg hqr] at h2
      by_cases hpr : p.1 = r.1
      · exact absurd (strLeB_antisymm q.1 r.1 h2 (hpr ▸ h1)) hqr
      · rw [if_neg hpr]
        exact strLeB_trans _ _ _ h1 h2

theorem sourcesDictStep_inv (done acc : List (Str × Str)) (p : Str × Str)
    (h1 : (acc.map Prod.fst).Nodup)
    (h2 : ∀ u l, (u, l) ∈ acc ↔ done.find? (hasUrl u) = some (u, l))
    (h3 : ∀ u, u ∈ acc.map Prod.fst ↔ u ∈ done.map Prod.fst) :
    ((sourcesDictStep acc p).map Prod.fst).Nodup ∧
    (∀ u l, (u, l) ∈ sourcesDictStep acc p ↔
      (done ++ [p]).find? (hasUrl u) = some (u, l)) ∧
    (∀ u, u ∈ (sourcesDictStep acc p).map Prod.fst ↔
      u ∈ (done ++ [p]).map Prod.fst) := by
  obtain ⟨u0, l0⟩ := p
  have hmap : (done ++ [(u0, l0)]).map Prod.fst = done.map Prod.fst ++ [u0] := by
    rw [List.map_append]
    rfl
  by_cases hmem : u0 ∈ acc.map Prod.fst
  · have hcont : (acc.map Prod.fst).contains u0 = true := List.elem_iff.mpr hmem
    have hstep : sourcesDictStep acc (u0, l0) = acc := by
      unfold sourcesDictStep
      rw [hcont]
      rfl
    rw [hstep]
    refine ⟨h1, ?_, ?_⟩
    · intro u l
      by_cases heq : u = u0
      · have hex : ∃ x ∈ done, hasUrl u0 x = true := by
          rcases List.mem_map.mp ((h3 u0).mp hmem) with ⟨x, hx, hx1⟩
          exact ⟨x, hx, by simp [hasUrl, hx1]⟩
        obtain ⟨y, hy⟩ :=
          Option.isSome_iff_exists.mp (List.find?_isSome.mpr hex)
        rw [heq, h2 u0 l, hy, find?_append_single_some _ done _ y hy]
      · have hfalse : hasUrl u (u0, l0) = false := by
          simp [hasUrl]
          exact fun hc => heq hc.symm
        rw [h2 u l, find?_append_single_neg _ done _ hfalse]
    · intro u
      rw [hmap, List.mem_append, List.mem_singleton]
      constructor
      · intro hu
        exact Or.inl ((h3 u).mp hu)
      · rintro (hu | rfl)
        · exact (h3 u).mpr hu
        · exact hmem
  · have hcont : (acc.map Prod.fst).contains u0 = false :=
      Bool.eq_false_iff.mpr (fun hc => hmem (List.elem_iff.mp hc))
    have hstep : sourcesDictStep acc (u0, l0) = acc ++ [(u0, l0)] := by
      unfold sourcesDictStep
      rw [hcont]
      rfl
    rw [hstep]
    have hnotin : u0 ∉ done.map Prod.fst := fun hin => hmem ((h3 u0).mpr hin)
    have hfindnone : done.find? (hasUrl u0) = none := by
      rw [List.find?_eq_none]
      intro x hx hpx
      refine hnotin (List.mem_map.mpr ⟨x, hx, ?_⟩)
      simpa [hasUrl] using hpx
    refine ⟨?_, ?_, ?_⟩
    · rw [List.map_append]
      refine List.Nodup.append h1 (by simp) ?_
      intro a ha hb
      simp only [List.map_cons, List.map_nil, List.mem_singleton] at hb
      subst hb
      exact hmem ha
    · intro u l
      rw [List.mem_append, List.mem_singleton, h2 u l]
      by_cases heq : u = u0
      · rw [heq, hfindnone,
          find?_append_single_none _ done _ hfindnone (by simp [hasUrl])]
        constructor
        · rintro (hc | hc)
          · exact absurd hc (by simp)
          · rw [Prod.mk.injEq] at hc
            rw [hc.2]
        · intro hc
          right
          have hinj := Option.some.inj hc
          rw [Prod.mk.injEq] at hinj
          rw [Prod.mk.injEq]
          exact ⟨rfl, hinj.2.symm⟩
      · have hfalse : hasUrl u (u0, l0) = false := by
          simp [hasUrl]
          exact fun hc => heq hc.symm
        rw [find?_append_single_neg _ done _ hfalse]
        constructor
        · rintro (hc | hc)
          · exact hc
          · rw [Prod.mk.injEq] at hc
            exact absurd hc.1 heq
        · exact fun hc => Or.inl hc
    · intro u
      rw [hmap, List.map_append, List.mem_append, List.mem_append]
      simp only [List.map_cons, List.map_nil, List.mem_singleton]
      constructor
      · rintro (hu | rfl)
        · exact Or.inl ((h3 u).mp hu)
        · exact Or.inr rfl
      · rintro (hu | rfl)
        · exact Or.inl ((h3 u).mpr hu)
        · exact Or.inr rfl

theorem sourcesDict_fold_inv :
    ∀ (rest done acc : List (Str × Str)),
      ((acc.map Prod.fst).Nodup ∧
       (∀ u l, (u, l) ∈ acc ↔ done.find? (hasUrl u) = some (u, l)) ∧
       (∀ u, u ∈ acc.map Prod.fst ↔ u ∈ done.map Prod.fst)) →
      (((rest.foldl sourcesDictStep acc).map Prod.fst).Nodup ∧
       (∀ u l, (u, l) ∈ rest.foldl sourcesDictStep acc ↔
          (done ++ rest).find? (hasUrl u) = some (u, l)) ∧
       (∀ u, u ∈ (rest.foldl sourcesDictStep acc).map Prod.fst ↔
          u ∈ (done ++ rest).map Prod.fst))
  | [], done, acc, h => by simpa using h
  | p :: rest, done, acc, h => by
    obtain ⟨h1, h2, h3⟩ := h
    have hstep := sourcesDictStep_inv done acc p h1 h2 h3
    have hrec := sourcesDict_fold_inv rest (done ++ [p]) (sourcesDictStep acc p)
      ⟨hstep.1, hstep.2.1, hstep.2.2⟩
    rw [List.append_assoc] at hrec
    simpa using hrec

theorem sourcesDict_correct (all : List (Str × Str)) :
    ((sourcesDict all).map Prod.fst).Nodup ∧
    (∀ u l, (u, l) ∈ sourcesDict all ↔ all.find? (hasUrl u) = some (u, l)) ∧
    (∀ u, u ∈ (sourcesDict all).map Prod.fst ↔ u ∈ all.map Prod.fst) := by
  have := sourcesDict_fold_inv all [] []
    ⟨by simp, by intro u l; simp, by intro u; simp⟩
  simpa [sourcesDict] using this

/-- C6: sources are deduplicated by URL across the whole rendered document
with the first occurrence's label winning, independent of which message or
branch produced them: the registry's URL list is duplicate-free, each kept
pair is the first occurrence of its URL, and a URL appears in the registry
iff it was collected at all. -/
theorem sources_dedup_correct :
    (∀ all : List (Str × Str),
      ((sourcesDict all).map Prod.fst).Nodup ∧
      ((sourcesSorted all).map Prod.fst).Nodup ∧
      (∀ u l, (u, l) ∈ sourcesDict all ↔ all.find? (hasUrl u) = some (u, l)) ∧
      (∀ u, u ∈ (sourcesDict all).map Prod.fst ↔ u ∈ all.map Prod.fst)) ∧
    (∀ perMessage : List (List (Str × Str)),
      ((sourcesDict perMessage.flatten).map Prod.fst).Nodup) := by
  constructor
  · intro all
    obtain ⟨h1, h2, h3⟩ := sourcesDict_correct all
    refine ⟨h1, ?_, h2, h3⟩
    have hperm : List.Perm (sourcesSorted all) (sourcesDict all) :=
      pySorted_perm pairLeB (sourcesDict all)
    exact (hperm.map Prod.fst).nodup_iff.mpr h1
  · intro perMessage
    exact (sourcesDict_correct perMessage.flatten).1

/-- C5 (amended): in the raw rendered document's sources registry, the entries
are numbered sequentially from 1 in ascending order of their URLs — Python
sorts the `(url, label)` items of the URL-keyed dict, so the URL is the
primary sort key and labels only break (impossible) ties. -/
theorem sources_registry_order (all : List (Str × Str)) :
    (sourcesSorted all).Pairwise (fun p q => strLeB p.1 q.1 = true) ∧
    (sourcesEntries all).map Prod.fst = List.range' 1 (sourcesSorted all).length ∧
    (sourcesEntries all).map Prod.snd = sourcesSorted all := by
  refine ⟨?_, ?_, ?_⟩
  · have hpw := pySorted_pairwise pairLeB pairLeB_total pairLeB_trans (sourcesDict all)
    refine hpw.imp ?_
    intro p q hpq
    unfold pairLeB at hpq
    by_cases heq : p.1 = q.1
    · rw [heq]
      exact strLeB_refl q.1
    · rw [if_neg heq] at hpq
      exact hpq
  · unfold sourcesEntries
    rw [List.map_map]
    have h1 : (Prod.fst ∘ fun p : Nat × Str × Str => (p.1 + 1, p.2))
        = (fun i => i + 1) ∘ Prod.fst := rfl
    rw [h1, ← List.map_map, List.enum_map_fst, List.range'_eq_map_range]
    apply List.map_congr_left
    intro i _
    omega
  · unfold sourcesEntries
    rw [List.map_map]
    have h1 : (Prod.snd ∘ fun p : Nat × Str × Str => (p.1 + 1, p.2)) = Prod.snd := rfl
    rw [h1, List.enum_map_snd]

/-- C5 counterexample: two collected sources whose URL order disagrees with
their label order — the rendered registry numbers label "z.example" first,
so the entries are not in alphabetical order of their labels. -/
theorem sources_registry_label_order_counterexample :
    (sourcesEntries [("http://z.example".toList, "z.example".toList),
        ("https://a.example".toList, "a.example".toList)]).map (fun e => e.2.2)
      = ["z.example".toList, "a.example".toList] ∧
    strLeB "z.example".toList "a.example".toList = false := by
  constructor
  · rfl
  · rfl

theorem dedupBlocksGo_eq_spec :
    ∀ (paras seen earlier : List Str) (n : Nat),
      (∀ s, s ∈ seen ↔ ∃ q ∈ earlier, n ≤ q.length ∧ normalize_text q = s) →
      dedupBlocksGo n seen paras = dedupKeepSpecGo n earlier paras
  | [], _, _, _, _ => rfl
  | p :: rest, seen, earlier, n, hinv => by
    by_cases hshort : p.length < n
    · have hcond : p.length < n ∨
          ¬ ∃ q ∈ earlier, n ≤ q.length ∧ normalize_text q = normalize_text p :=
        Or.inl hshort
      rw [dedupBlocksGo, if_pos hshort, dedupKeepSpecGo, if_pos hcond]
      congr 1
      refine dedupBlocksGo_eq_spec rest seen (earlier ++ [p]) n ?_
      intro s
      rw [hinv s]
      constructor
      · rintro ⟨q, hq, hlen, hnorm⟩
        exact ⟨q, List.mem_append.mpr (Or.inl hq), hlen, hnorm⟩
      · rintro ⟨q, hq, hlen, hnorm⟩
        rcases List.mem_append.mp hq with hq | hq
        · exact ⟨q, hq, hlen, hnorm⟩
        · rw [List.mem_singleton] at hq
          subst hq
          omega
    · by_cases hseen : (normalize_text p) ∈ seen
      · have hcont : seen.contains (normalize_text p) = true := List.elem_iff.mpr hseen
        have hex : ∃ q ∈ earlier, n ≤ q.length ∧
            normalize_text q = normalize_text p := (hinv _).mp hseen
        have hcond : ¬ (p.length < n ∨
            ¬ ∃ q ∈ earlier, n ≤ q.length ∧ normalize_text q = normalize_text p) := by
          rintro (hc | hc)
          · exact hshort hc
          · exact hc hex
        rw [dedupBlocksGo, if_neg hshort, if_pos hcont, dedupKeepSpecGo, if_neg hcond]
        refine dedupBlocksGo_eq_spec rest seen (earlier ++ [p]) n ?_
        intro s
        rw [hinv s]
        constructor
        · rintro ⟨q, hq, hlen, hnorm⟩
          exact ⟨q, List.mem_append.mpr (Or.inl hq), hlen, hnorm⟩
        · rintro ⟨q, hq, hlen, hnorm⟩
          rcases List.mem_append.mp hq with hq | hq
          · exact ⟨q, hq, hlen, hnorm⟩
          · rw [List.mem_singleton] at hq
            subst hq
            exact hnorm ▸ hex
      · have hcont : seen.contains (normalize_text p) = false :=
          Bool.eq_false_iff.mpr (fun hc => hseen (List.elem_iff.mp hc))
        have hnotex : ¬ ∃ q ∈ earlier, n ≤ q.length ∧
            normalize_text q = normalize_text p :=
          fun hex => hseen ((hinv _).mpr hex)
        have hcond : p.length < n ∨
            ¬ ∃ q ∈ earlier, n ≤ q.length ∧ normalize_text q = normalize_text p :=
          Or.inr hnotex
        rw [dedupBlocksGo, if_neg hshort]
        rw [if_neg (show ¬ seen.contains (normalize_text p) = true by rw [hcont]; simp)]
        rw [dedupKeepSpecGo, if_pos hcond]
        congr 1
        refine dedupBlocksGo_eq_spec rest (seen ++ [normalize_text p]) (earlier ++ [p]) n ?_
        intro s
        rw [List.mem_append, List.mem_singleton, hinv s]
        constructor
        · rintro (⟨q, hq, hlen, hnorm⟩ | rfl)
          · exact ⟨q, List.mem_append.mpr (Or.inl hq), hlen, hnorm⟩
          · exact ⟨p, List.mem_append.mpr (Or.inr (by simp)), by omega, rfl⟩
        · rintro ⟨q, hq, hlen, hnorm⟩
          rcases List.mem_append.mp hq with hq | hq
          · exact Or.inl ⟨q, hq, hlen, hnorm⟩
          · rw [List.mem_singleton] at hq
            subst hq
            exact Or.inr hnorm.symm

theorem dedupBlocksGo_sublist (n : Nat) :
    ∀ (paras seen : List Str), (dedupBlocksGo n seen paras).Sublist paras
  | [], _ => List.Sublist.refl []
  | p :: rest, seen => by
    rw [dedupBlocksGo]
    split
    · exact (dedupBlocksGo_sublist n rest seen).cons₂ p
    · split
      · exact (dedupBlocksGo_sublist n rest seen).cons p
      · exact (dedupBlocksGo_sublist n rest (seen ++ [normalize_text p])).cons₂ p

/-- C4: paragraph deduplication splits on blank-line-delimited paragraphs:
every paragraph shorter than `min_block_size` is kept (so a repeated short
paragraph is kept each time), while a paragraph of length at least
`min_block_size` is kept exactly when no earlier paragraph of length at least
`min_block_size` has the same whitespace-normalized content; the kept
paragraphs appear in original order (the result is a sublist). -/
theorem deduplicate_blocks_correct :
    (∀ (text : Str) (n : Nat),
      deduplicate_blocks text n = joinPara (dedupKeepSpecGo n [] (splitPara text))) ∧
    (∀ (n : Nat) (paras seen : List Str),
      (dedupBlocksGo n seen paras).Sublist paras) ∧
    (∀ (p : Str) (n : Nat), p.length < n → dedupBlocksGo n [] [p, p] = [p, p]) ∧
    (∀ (p : Str) (n : Nat), n ≤ p.length → dedupBlocksGo n [] [p, p] = [p]) := by
  refine ⟨?_, ?_, ?_, ?_⟩
  · intro text n
    unfold deduplicate_blocks
    congr 1
    exact dedupBlocksGo_eq_spec (splitPara text) [] [] n (by intro s; simp)
  · intro n paras seen
    exact dedupBlocksGo_sublist n paras seen
  · intro p n h
    rw [dedupBlocksGo, if_pos h, dedupBlocksGo, if_pos h]
    rfl
  · intro p n h
    have hns : ¬ p.length < n := by omega
    rw [dedupBlocksGo, if_neg hns]
    rw [if_neg (by simp)]
    rw [dedupBlocksGo, if_neg hns]
    rw [if_pos (by simp)]
    rfl

/-- Witness for C4: with threshold 3, the 2-character paragraph "ab" repeated
twice is kept both times, while with threshold 1 it is kept once. -/
theorem deduplicate_blocks_correct_witness :
    dedupBlocksGo 3 [] ["ab".toList, "ab".toList] = ["ab".toList, "ab".toList] ∧
    dedupBlocksGo 1 [] ["ab".toList, "ab".toList] = ["ab".toList] :=
  ⟨deduplicate_blocks_correct.2.2.1 "ab".toList 3 (by decide),
   deduplicate_blocks_correct.2.2.2 "ab".toList 1 (by decide)⟩

/-! ### Lines, prefixes and containment -/

/-- A newline-free string is a single line. -/
theorem splitLines_of_no_newline (s : Str) (h : '\n' ∉ s) :
    splitLines s = [s] := by
  induction s with
  | nil => rfl
  | cons c t ih =>
    rw [List.mem_cons] at h
    push_neg at h
    have hc : ¬(c = '\n') := fun he => h.1 he.symm
    simp only [splitLines, if_neg hc, ih h.2]

/-- Splitting after a newline-free first line. -/
theorem splitLines_append_newline (l x : Str) (h : '\n' ∉ l) :
    splitLines (l ++ '\n' :: x) = l :: splitLines x := by
  induction l with
  | nil => simp [splitLines]
  | cons c t ih =>
    rw [List.mem_cons] at h
    push_neg at h
    have hc : ¬(c = '\n') := fun he => h.1 he.symm
    rw [List.cons_append]
    simp only [splitLines, List.append_eq, if_neg hc, ih h.2]

/-- `splitLines` inverts `joinLines` on nonempty lists of newline-free
lines. -/
theorem splitLines_joinLines (ls : List Str) (hne : ls ≠ [])
    (h : ∀ l ∈ ls, '\n' ∉ l) : splitLines (joinLines ls) = ls := by
  induction ls with
  | nil => exact absurd rfl hne
  | cons l rest ih =>
    cases rest with
    | nil =>
      exact splitLines_of_no_newline l (h l (List.mem_cons_self l []))
    | cons l2 rest2 =>
      have hjoin : joinLines (l :: l2 :: rest2) =
          l ++ '\n' :: joinLines (l2 :: rest2) := rfl
      rw [hjoin, splitLines_append_newline l _ (h l (List.mem_cons_self l _)),
        ih (by simp) (fun x hx => h x (List.mem_cons_of_mem l hx))]

/-- `containsB` is substring occurrence. -/
theorem containsB_infix_iff (n s : Str) (hn : n ≠ []) :
    containsB n s = true ↔ n <:+: s := by
  induction s with
  | nil =>
    simp only [containsB, List.infix_nil]
    exact ⟨fun h => absurd h (by simp), fun h => absurd h hn⟩
  | cons c t ih =>
    simp only [containsB, Bool.or_eq_true, List.infix_cons_iff,
      List.isPrefixOf_iff_prefix, ih]

/-- `containsB` is monotone under infix extension. -/
theorem containsB_mono (n s t : Str) (hn : n ≠ []) (hst : s <:+: t)
    (h : containsB n s = true) : containsB n t = true :=
  (containsB_infix_iff n t hn).mpr
    (((containsB_infix_iff n s hn).mp h).trans hst)

/-- Appendix-header detection is monotone under line extension. -/
theorem header_mono (l l' : Str) (hp : l <+: l')
    (h : is_appendix_header_line l = true) :
    is_appendix_header_line l' = true := by
  unfold is_appendix_header_line at h ⊢
  simp only [Bool.and_eq_true] at h ⊢
  have hinf : (l.filter Char.isAlpha).map Char.toUpper <+:
      (l'.filter Char.isAlpha).map Char.toUpper :=
    (hp.filter Char.isAlpha).map Char.toUpper
  exact ⟨containsB_mono _ _ _ (by decide) hinf.isInfix h.1,
    containsB_mono _ _ _ (by decide) hinf.isInfix h.2⟩

/-- Every line of a prefix of a joined line list is a prefix of one of the
lines. -/
theorem splitLines_take_lines (ls : List Str) (hne : ls ≠ [])
    (h : ∀ l ∈ ls, '\n' ∉ l) (k : Nat) :
    ∀ l ∈ splitLines ((joinLines ls).take k), ∃ x ∈ ls, l <+: x := by
  induction ls generalizing k with
  | nil => exact absurd rfl hne
  | cons l0 rest ih =>
    cases rest with
    | nil =>
      intro l hl
      have h0 : '\n' ∉ l0 := h l0 (List.mem_cons_self l0 [])
      have hnl : '\n' ∉ (joinLines [l0]).take k := by
        intro hmem
        exact h0 (List.take_subset k _ hmem)
      rw [splitLines_of_no_newline _ hnl] at hl
      simp only [List.mem_singleton] at hl
      refine ⟨l0, List.mem_cons_self l0 [], ?_⟩
      rw [hl]
      have hj : joinLines [l0] = l0 := rfl
      rw [hj]
      exact List.take_prefix k l0
    | cons l1 rest1 =>
      intro l hl
      have h0 : '\n' ∉ l0 := h l0 (List.mem_cons_self l0 _)
      have hjoin : joinLines (l0 :: l1 :: rest1) =
          l0 ++ '\n' :: joinLines (l1 :: rest1) := rfl
      rw [hjoin, List.take_append_eq_append_take] at hl
      by_cases hk : k ≤ l0.length
      · have hz : ('\n' :: joinLines (l1 :: rest1)).take (k - l0.length) = [] := by
          rw [Nat.sub_eq_zero_of_le hk, List.take_zero]
        rw [hz, List.append_nil] at hl
        have hnl : '\n' ∉ l0.take k :=
          fun hmem => h0 (List.take_subset k l0 hmem)
        rw [splitLines_of_no_newline _ hnl] at hl
        simp only [List.mem_singleton] at hl
        refine ⟨l0, List.mem_cons_self l0 _, ?_⟩
        rw [hl]
        exact List.take_prefix k l0
      · push_neg at hk
        have hkl : l0.length ≤ k := Nat.le_of_lt hk
        rw [List.take_of_length_le hkl] at hl
        obtain ⟨m, hm⟩ := Nat.exists_eq_succ_of_ne_zero
          (Nat.pos_iff_ne_zero.mp (Nat.sub_pos_of_lt hk))
        rw [hm] at hl
        simp only [List.take_succ_cons] at hl
        rw [splitLines_append_newline l0 _ h0, List.mem_cons] at hl
        rcases hl with heq | hl
        · refine ⟨l0, List.mem_cons_self l0 _, ?_⟩
          rw [heq]
        · obtain ⟨x, hx, hpx⟩ := ih (by simp)
            (fun y hy => h y (List.mem_cons_of_mem l0 hy)) m l hl
          exact ⟨x, List.mem_cons_of_mem l0 hx, hpx⟩

/-- `rstripL` yields a prefix. -/
theorem prefix_rstripL (s : Str) : rstripL s <+: s := by
  unfold rstripL
  have h := List.dropWhile_suffix (l := s.reverse) isPySpace
  rw [← List.reverse_prefix] at h
  simpa using h

/-! ### Idempotence of the appendix stages (C3) -/

/-- The lines before the first header line are themselves non-header lines of
the input. -/
theorem stripExistingAppendixGo_elems (ls : List Str) (pre : List Str)
    (h : stripExistingAppendixGo ls = some pre) :
    ∀ l ∈ pre, l ∈ ls ∧ is_appendix_header_line l = false := by
  induction ls generalizing pre with
  | nil => simp [stripExistingAppendixGo] at h
  | cons l0 rest ih =>
    unfold stripExistingAppendixGo at h
    by_cases h0 : is_appendix_header_line l0
    · rw [if_pos h0] at h
      cases h
      intro l hl
      simp at hl
    · rw [if_neg h0] at h
      cases hrec : stripExistingAppendixGo rest with
      | none => rw [hrec] at h; exact absurd h (by simp)
      | some pre' =>
        rw [hrec] at h
        have hp : l0 :: pre' = pre := by simpa using h
        subst hp
        intro l hl
        rw [List.mem_cons] at hl
        rcases hl with heq | hl
        · rw [heq]
          exact ⟨List.mem_cons_self l0 rest, Bool.eq_false_iff.mpr h0⟩
        · obtain ⟨hmem, hhd⟩ := ih pre' hrec l hl
          exact ⟨List.mem_cons_of_mem l0 hmem, hhd⟩

/-- Without a header line the scan returns `none`. -/
theorem stripExistingAppendixGo_none (ls : List Str)
    (h : ∀ l ∈ ls, is_appendix_header_line l = false) :
    stripExistingAppendixGo ls = none := by
  induction ls with
  | nil => rfl
  | cons l0 rest ih =>
    unfold stripExistingAppendixGo
    rw [if_neg (by simp [h l0 (List.mem_cons_self l0 rest)]),
      ih (fun l hl => h l (List.mem_cons_of_mem l0 hl))]
    rfl

/-- `_strip_existing_appendix` leaves header-free texts unchanged. -/
theorem strip_existing_appendix_of_no_header (u : Str)
    (hu : ∀ l ∈ splitLines u, is_appendix_header_line l = false) :
    strip_existing_appendix u = u := by
  unfold strip_existing_appendix
  rw [stripExistingAppendixGo_none _ hu]

/-- `_strip_existing_appendix` is idempotent: its output has no header line
left (every output line is a prefix of a non-header input line). -/
theorem strip_existing_appendix_idem (t : Str) :
    strip_existing_appendix (strip_existing_appendix t) =
      strip_existing_appendix t := by
  cases hgo : stripExistingAppendixGo (splitLines t) with
  | none =>
    have h1 : strip_existing_appendix t = t := by
      unfold strip_existing_appendix
      rw [hgo]
    rw [h1]
    exact h1
  | some pre =>
    have h1 : strip_existing_appendix t = rstripL (joinLines pre) := by
      unfold strip_existing_appendix
      rw [hgo]
    rw [h1]
    apply strip_existing_appendix_of_no_header
    have helems := stripExistingAppendixGo_elems (splitLines t) pre hgo
    intro l hl
    cases hpre : pre with
    | nil =>
      subst hpre
      have h2 : rstripL (joinLines ([] : List Str)) = [] := rfl
      rw [h2] at hl
      have h3 : splitLines ([] : Str) = [[]] := rfl
      rw [h3] at hl
      simp only [List.mem_singleton] at hl
      rw [hl]
      decide
    | cons p0 ps =>
      subst hpre
      have hnl : ∀ x ∈ p0 :: ps, '\n' ∉ x := fun x hx =>
        splitLines_no_newline t x ((helems x hx).1)
      obtain ⟨k, hk⟩ : ∃ k, rstripL (joinLines (p0 :: ps)) =
          (joinLines (p0 :: ps)).take k :=
        ⟨(rstripL (joinLines (p0 :: ps))).length,
          List.prefix_iff_eq_take.mp (prefix_rstripL _)⟩
      rw [hk] at hl
      obtain ⟨x, hx, hpx⟩ :=
        splitLines_take_lines (p0 :: ps) (by simp) hnl k l hl
      rcases hhl : is_appendix_header_line l with _ | _
      · rfl
      · exact absurd (header_mono l x hpx hhl)
          (by simp [(helems x hx).2])

/-- `_remove_appendix_header_lines` is idempotent. -/
theorem remove_appendix_header_lines_idem (t : Str) :
    remove_appendix_header_lines (remove_appendix_header_lines t) =
      remove_appendix_header_lines t := by
  unfold remove_appendix_header_lines
  cases hf : (splitLines t).filter (fun l => !(is_appendix_header_line l)) with
  | nil =>
    have h1 : joinLines ([] : List Str) = [] := rfl
    rw [h1]
    have h2 : splitLines ([] : Str) = [[]] := rfl
    rw [h2]
    decide
  | cons l0 rest =>
    have hsl : splitLines (joinLines (l0 :: rest)) = l0 :: rest := by
      apply splitLines_joinLines _ (by simp)
      intro l hl
      rw [← hf] at hl
      exact splitLines_no_newline t l (List.mem_of_mem_filter hl)
    rw [hsl]
    have hall : ∀ l ∈ l0 :: rest, (!(is_appendix_header_line l)) = true := by
      intro l hl
      rw [← hf] at hl
      exact (List.mem_filter.mp hl).2
    rw [List.filter_eq_self.mpr hall]

/-- C3: the claim that **every** cleaning stage is idempotent is refuted by
the citation-marker strip and the markup sanitizer (see the counterexample);
the appendix stages are idempotent: truncating at the first appendix header
line and removing appendix header lines both change nothing when
re-applied. -/
theorem cleaning_stage_idempotence (t : Str) :
    strip_existing_appendix (strip_existing_appendix t) =
      strip_existing_appendix t ∧
    remove_appendix_header_lines (remove_appendix_header_lines t) =
      remove_appendix_header_lines t :=
  ⟨strip_existing_appendix_idem t, remove_appendix_header_lines_idem t⟩

/-- C3 counterexample: `_strip_citation_markers` maps `"[1][2]"` to `"[1]"`
(the second bracket is followed by end-of-text, the first by `[`, failing
the lookahead), and a second application erases the remaining bracket;
`_sanitize_openai_markup` maps `"<<a>a>"` to `"<a>"`, which a second
application erases. -/
theorem cleaning_stage_idempotence_counterexample :
    strip_citation_markers (strip_citation_markers "[1][2]".toList) ≠
      strip_citation_markers "[1][2]".toList ∧
    sanitize_openai_markup (sanitize_openai_markup "<<a>a>".toList) ≠
      sanitize_openai_markup "<<a>a>".toList := by
  decide

/-! ### The sanitizer leaves no separator line (C9) -/

/-- The `\n={60}` needle: its presence is implied by any line at index ≥ 1
starting with 60 `=` characters. -/
def sep61 : Str := '\n' :: rep 60 '='

theorem containsB_cons_of (n : Str) (c : Char) (t : Str)
    (h : containsB n t = true) : containsB n (c :: t) = true := by
  simp [containsB, h]

theorem containsB_of_isPrefixOf (n : Str) (c : Char) (t : Str)
    (h : n.isPrefixOf (c :: t) = true) : containsB n (c :: t) = true := by
  simp [containsB, h]

theorem rep_prefix_rep (c : Char) (m k : Nat) (h : m ≤ k) :
    rep m c <+: rep k c := by
  induction m generalizing k with
  | zero => exact List.nil_prefix
  | succ m ih =>
    cases k with
    | zero => exact absurd h (by omega)
    | succ k =>
      have h1 : rep (m + 1) c = c :: rep m c := rfl
      have h2 : rep (k + 1) c = c :: rep k c := rfl
      rw [h1, h2, List.cons_prefix_cons]
      exact ⟨rfl, ih k (Nat.le_of_succ_le_succ h)⟩

/-- A replicate prefix forces a long `takeWhile` run. -/
theorem rep_prefix_takeWhile (l : Str) (m : Nat)
    (h : rep m '=' <+: l) : m ≤ (l.takeWhile (fun c => c = '=')).length := by
  induction m generalizing l with
  | zero => omega
  | succ m ih =>
    cases l with
    | nil =>
      rw [List.prefix_nil] at h
      exact absurd h (by simp [rep])
    | cons c t =>
      have h1 : rep (m + 1) '=' = '=' :: rep m '=' := rfl
      rw [h1, List.cons_prefix_cons] at h
      obtain ⟨hc, hr⟩ := h
      subst hc
      have : (('=' :: t).takeWhile (fun c => c = '=')) =
          '=' :: t.takeWhile (fun c => c = '=') := by
        simp [List.takeWhile_cons]
      rw [this]
      simpa using ih t hr

/-- A line with a `p`-prefixed member of the tail puts `'\n' ++ p` into the
joined text. -/
theorem contains_newline_prefix_of_tail (l0 : Str) (ls : List Str) (p l : Str)
    (hp : p ≠ []) (hl : l ∈ ls) (hpre : p <+: l) :
    containsB ('\n' :: p) (joinLines (l0 :: ls)) = true := by
  induction ls generalizing l0 with
  | nil => simp at hl
  | cons l1 rest ih =>
    have hjoin : joinLines (l0 :: l1 :: rest) =
        l0 ++ '\n' :: joinLines (l1 :: rest) := rfl
    rw [List.mem_cons] at hl
    rcases hl with heq | hl
    · subst heq
      have hhead : l <+: joinLines (l :: rest) := by
        cases rest with
        | nil => exact List.prefix_refl l
        | cons r rs =>
          have : joinLines (l :: r :: rs) = l ++ '\n' :: joinLines (r :: rs) :=
            rfl
          rw [this]
          exact List.prefix_append l _
      have hpj : ('\n' :: p) <+: ('\n' :: joinLines (l :: rest)) := by
        rw [List.cons_prefix_cons]
        exact ⟨rfl, hpre.trans hhead⟩
      have hinf : ('\n' :: p) <:+: joinLines (l0 :: l :: rest) := by
        rw [hjoin]
        exact hpj.isInfix.trans (List.suffix_append l0 _).isInfix
      exact (containsB_infix_iff _ _ (by simp)).mpr hinf
    · have hrec := ih l1 hl
      have hsuf : joinLines (l1 :: rest) <:+: joinLines (l0 :: l1 :: rest) := by
        rw [hjoin]
        exact ((List.suffix_cons '\n' _).trans
          (List.suffix_append l0 _)).isInfix
      exact containsB_mono _ _ _ (by simp) hsuf hrec

/-- Occurrences of a `'\n'`-headed needle skip a newline-free prefix. -/
theorem containsB_newline_head_append (p l s : Str) (hl : '\n' ∉ l) :
    containsB ('\n' :: p) (l ++ s) = containsB ('\n' :: p) s := by
  induction l with
  | nil => rfl
  | cons c t ih =>
    rw [List.mem_cons] at hl
    push_neg at hl
    have hpre : (('\n' :: p).isPrefixOf (c :: (t ++ s))) = false := by
      cases hip : ('\n' :: p).isPrefixOf (c :: (t ++ s)) with
      | false => rfl
      | true =>
        rw [List.isPrefixOf_iff_prefix, List.cons_prefix_cons] at hip
        exact absurd hip.1 hl.1
    have : (c :: t) ++ s = c :: (t ++ s) := rfl
    rw [this]
    simp only [containsB, hpre, Bool.false_or]
    exact ih hl.2

/-- A newline-free prefix stops before an appended newline. -/
theorem prefix_append_nl : ∀ (p l1 x : Str), '\n' ∉ p →
    p <+: l1 ++ '\n' :: x → p <+: l1 := by
  intro p
  induction p with
  | nil => intro l1 x _ _; exact List.nil_prefix
  | cons c q ih =>
    intro l1 x hp h
    rw [List.mem_cons] at hp
    push_neg at hp
    cases l1 with
    | nil =>
      rw [List.nil_append, List.cons_prefix_cons] at h
      exact absurd h.1 (fun he => hp.1 he.symm)
    | cons d l1t =>
      rw [List.cons_append, List.cons_prefix_cons] at h
      rw [List.cons_prefix_cons]
      exact ⟨h.1, ih l1t x hp.2 h.2⟩

/-- A newline-free prefix of a joined list is a prefix of the first line. -/
theorem prefix_join_head (p l1 : Str) (rest : List Str) (hp : '\n' ∉ p)
    (h : p <+: joinLines (l1 :: rest)) : p <+: l1 := by
  cases rest with
  | nil => exact h
  | cons r rs => exact prefix_append_nl p l1 (joinLines (r :: rs)) hp h

/-- Converse bridge: an occurrence of `'\n' ++ p` in a joined list of
newline-free lines exhibits a `p`-prefixed line. -/
theorem contains_newline_prefix_elim (p : Str) (hp : '\n' ∉ p)
    (ls : List Str) (hls : ∀ l ∈ ls, '\n' ∉ l)
    (h : containsB ('\n' :: p) (joinLines ls) = true) :
    ∃ l ∈ ls, p <+: l := by
  induction ls with
  | nil => simp [joinLines, containsB] at h
  | cons l0 rest ih =>
    cases rest with
    | nil =>
      exfalso
      have hinf := (containsB_infix_iff _ _ (by simp)).mp h
      exact hls l0 (List.mem_cons_self l0 [])
        (hinf.subset (List.mem_cons_self '\n' p))
    | cons l1 rest1 =>
      have hjoin : joinLines (l0 :: l1 :: rest1) =
          l0 ++ '\n' :: joinLines (l1 :: rest1) := rfl
      rw [hjoin, containsB_newline_head_append _ _ _
        (hls l0 (List.mem_cons_self l0 _))] at h
      simp only [containsB, Bool.or_eq_true] at h
      rcases h with h | h
      · rw [List.isPrefixOf_iff_prefix, List.cons_prefix_cons] at h
        have hpl1 := prefix_join_head p l1 rest1 hp h.2
        exact ⟨l1, List.mem_cons_of_mem l0 (List.mem_cons_self l1 rest1), hpl1⟩
      · obtain ⟨l, hl, hpre⟩ := ih
          (fun x hx => hls x (List.mem_cons_of_mem l0 hx)) h
        exact ⟨l, List.mem_cons_of_mem l0 hl, hpre⟩

/-- The blanked lines of the separator pass keep every leading `=`-run short. -/
theorem sep60Line_bound (l : Str) :
    ((sep60Line l).takeWhile (fun c => c = '=')).length < 60 := by
  unfold sep60Line
  by_cases h : 60 ≤ (l.takeWhile (fun c => c = '=')).length
  · rw [if_pos h]
    simp
  · rw [if_neg h]
    omega

/-- After the separator pass, the needle `\n={60}` is absent. -/
theorem mapLines_sep60_free (t : Str) :
    containsB sep61 (mapLines sep60Line t) = false := by
  cases hc : containsB sep61 (mapLines sep60Line t) with
  | false => rfl
  | true =>
    exfalso
    unfold mapLines at hc
    have hnl : ∀ l ∈ (splitLines t).map sep60Line, '\n' ∉ l := by
      intro l hl
      rw [List.mem_map] at hl
      obtain ⟨l', hl', rfl⟩ := hl
      have := splitLines_no_newline t l' hl'
      unfold sep60Line
      split
      · simp
      · exact this
    have hc2 : containsB ('\n' :: rep 60 '=')
        (joinLines ((splitLines t).map sep60Line)) = true := hc
    obtain ⟨l, hl, hpre⟩ := contains_newline_prefix_elim (rep 60 '=')
      (by simp [rep, List.mem_replicate]) _ hnl hc2
    rw [List.mem_map] at hl
    obtain ⟨l', _, rfl⟩ := hl
    have := rep_prefix_takeWhile _ 60 hpre
    have := sep60Line_bound l'
    omega

/-- A `=`-replicate prefix survives backwards through the space collapser. -/
theorem rep_prefix_collapseSpace (m : Nat) (s : Str)
    (h : rep m '=' <+: collapseSpaceRuns false s) : rep m '=' <+: s := by
  induction m generalizing s with
  | zero => exact List.nil_prefix
  | succ m ih =>
    cases s with
    | nil =>
      rw [show collapseSpaceRuns false [] = [] from rfl, List.prefix_nil] at h
      exact absurd h (by simp [rep])
    | cons c t =>
      by_cases hc : c = ' '
      · subst hc
        rw [show collapseSpaceRuns false (' ' :: t) =
          ' ' :: collapseSpaceRuns true t from rfl] at h
        rw [show rep (m + 1) '=' = '=' :: rep m '=' from rfl,
          List.cons_prefix_cons] at h
        exact absurd h.1 (by decide)
      · rw [show collapseSpaceRuns false (c :: t) =
          c :: collapseSpaceRuns false t from if_neg hc] at h
        rw [show rep (m + 1) '=' = '=' :: rep m '=' from rfl,
          List.cons_prefix_cons] at h ⊢
        exact ⟨h.1, ih t h.2⟩

/-- The space collapser cannot create an occurrence of `\n={60}`. -/
theorem collapseSpace_preserves_free (m : Nat) (b : Bool) (s : Str)
    (h : containsB ('\n' :: rep m '=') (collapseSpaceRuns b s) = true) :
    containsB ('\n' :: rep m '=') s = true := by
  induction s generalizing b with
  | nil => simpa [collapseSpaceRuns, containsB] using h
  | cons c t ih =>
    by_cases hc : c = ' '
    · subst hc
      by_cases hb : b = true
    
      · subst hb
        rw [show collapseSpaceRuns true (' ' :: t) =
          collapseSpaceRuns true t from rfl] at h
        exact containsB_cons_of _ _ _ (ih true h)
      · have hb' : b = false := by cases b <;> simp_all
        subst hb'
        rw [show collapseSpaceRuns false (' ' :: t) =
          ' ' :: collapseSpaceRuns true t from rfl] at h
        simp only [containsB, Bool.or_eq_true] at h
        rcases h with h | h
        · rw [List.isPrefixOf_iff_prefix, List.cons_prefix_cons] at h
          exact absurd h.1 (by decide)
        · exact containsB_cons_of _ _ _ (ih true h)
    · rw [show collapseSpaceRuns b (c :: t) =
        c :: collapseSpaceRuns false t from if_neg hc] at h
      simp only [containsB, Bool.or_eq_true] at h
      rcases h with h | h
      · rw [List.isPrefixOf_iff_prefix, List.cons_prefix_cons] at h
        have hpre := rep_prefix_collapseSpace m t h.2
        apply containsB_of_isPrefixOf
        rw [List.isPrefixOf_iff_prefix, List.cons_prefix_cons]
        exact ⟨h.1, hpre⟩
      · exact containsB_cons_of _ _ _ (ih false h)

/-- A `=`-replicate prefix survives backwards through the newline collapser
started in state 0. -/
theorem rep_prefix_collapseNewline0 (m : Nat) (t : Str)
    (h : rep m '=' <+: collapseNewlineRuns 0 t) : rep m '=' <+: t := by
  induction m generalizing t with
  | zero => exact List.nil_prefix
  | succ m ih =>
    cases t with
    | nil =>
      rw [show collapseNewlineRuns 0 [] = [] from rfl, List.prefix_nil] at h
      exact absurd h (by simp [rep])
    | cons c t' =>
      by_cases hc : c = '\n'
      · subst hc
        rw [show collapseNewlineRuns 0 ('\n' :: t') =
          '\n' :: collapseNewlineRuns 1 t' from rfl] at h
        rw [show rep (m + 1) '=' = '=' :: rep m '=' from rfl,
          List.cons_prefix_cons] at h
        exact absurd h.1 (by decide)
      · rw [show collapseNewlineRuns 0 (c :: t') =
          c :: collapseNewlineRuns 0 t' from if_neg hc] at h
        rw [show rep (m + 1) '=' = '=' :: rep m '=' from rfl,
          List.cons_prefix_cons] at h ⊢
        exact ⟨h.1, ih t' h.2⟩

/-- A nonempty `=`-replicate prefix of the newline collapser's output is a
prefix of the input with its leading newlines removed. -/
theorem rep_prefix_collapseNewline (m k : Nat) (t : Str)
    (h : rep (m + 1) '=' <+: collapseNewlineRuns k t) :
    rep (m + 1) '=' <+: t.dropWhile (fun c => c = '\n') := by
  induction t generalizing k with
  | nil =>
    rw [show collapseNewlineRuns k [] = [] from rfl, List.prefix_nil] at h
    exact absurd h (by simp [rep])
  | cons c t' ih =>
    by_cases hc : c = '\n'
    · subst hc
      by_cases hk : 2 ≤ k
      · rw [show collapseNewlineRuns k ('\n' :: t') =
          collapseNewlineRuns k t' from if_pos hk] at h
        have := ih k h
        simpa [List.dropWhile_cons] using this
      · rw [show collapseNewlineRuns k ('\n' :: t') =
          '\n' :: collapseNewlineRuns (k + 1) t' from if_neg hk] at h
        rw [show rep (m + 1) '=' = '=' :: rep m '=' from rfl,
          List.cons_prefix_cons] at h
        exact absurd h.1 (by decide)
    · rw [show collapseNewlineRuns k (c :: t') =
        c :: collapseNewlineRuns 0 t' from if_neg hc] at h
      have hdw : (c :: t').dropWhile (fun c => c = '\n') = c :: t' := by
        simp [List.dropWhile_cons, hc]
      rw [hdw]
      rw [show rep (m + 1) '=' = '=' :: rep m '=' from rfl,
        List.cons_prefix_cons] at h ⊢
      exact ⟨h.1, rep_prefix_collapseNewline0 m t' h.2⟩

/-- Rebuilding the occurrence behind leading newlines. -/
theorem contains_of_dropWhile_prefix (m : Nat) (t : Str)
    (h : rep (m + 1) '=' <+: t.dropWhile (fun c => c = '\n')) :
    containsB ('\n' :: rep (m + 1) '=') ('\n' :: t) = true := by
  induction t with
  | nil =>
    rw [show ([] : Str).dropWhile (fun c => c = '\n') = [] from rfl,
      List.prefix_nil] at h
    exact absurd h (by simp [rep])
  | cons c t' ih =>
    by_cases hc : c = '\n'
    · subst hc
      have hdw : ('\n' :: t').dropWhile (fun c => c = '\n') =
          t'.dropWhile (fun c => c = '\n') := by
        simp [List.dropWhile_cons]
      rw [hdw] at h
      exact containsB_cons_of _ _ _ (ih h)
    · have hdw : (c :: t').dropWhile (fun c => c = '\n') = c :: t' := by
        simp [List.dropWhile_cons, hc]
      rw [hdw] at h
      apply containsB_of_isPrefixOf
      rw [List.isPrefixOf_iff_prefix, List.cons_prefix_cons]
      exact ⟨rfl, h⟩

/-- The newline collapser cannot create an occurrence of `\n={60}`. -/
theorem collapseNewline_preserves_free (m k : Nat) (s : Str)
    (h : containsB ('\n' :: rep (m + 1) '=') (collapseNewlineRuns k s) = true) :
    containsB ('\n' :: rep (m + 1) '=') s = true := by
  induction s generalizing k with
  | nil => simpa [collapseNewlineRuns, containsB] using h
  | cons c t ih =>
    by_cases hc : c = '\n'
    · subst hc
      by_cases hk : 2 ≤ k
      · rw [show collapseNewlineRuns k ('\n' :: t) =
          collapseNewlineRuns k t from if_pos hk] at h
        exact containsB_cons_of _ _ _ (ih k h)
      · rw [show collapseNewlineRuns k ('\n' :: t) =
          '\n' :: collapseNewlineRuns (k + 1) t from if_neg hk] at h
        simp only [containsB, Bool.or_eq_true] at h
        rcases h with h | h
        · rw [List.isPrefixOf_iff_prefix, List.cons_prefix_cons] at h
          exact contains_of_dropWhile_prefix m t
            (rep_prefix_collapseNewline m (k + 1) t h.2)
        · exact containsB_cons_of _ _ _ (ih (k + 1) h)
    · rw [show collapseNewlineRuns k (c :: t) =
        c :: collapseNewlineRuns 0 t from if_neg hc] at h
      simp only [containsB, Bool.or_eq_true] at h
      rcases h with h | h
      · rw [List.isPrefixOf_iff_prefix, List.cons_prefix_cons] at h
        exact absurd h.1.symm hc
      · exact containsB_cons_of _ _ _ (ih 0 h)

/-- `stripL` yields an infix. -/
theorem infix_stripL (s : Str) : stripL s <:+: s :=
  (prefix_rstripL (lstripL s)).isInfix.trans
    (List.dropWhile_suffix isPySpace).isInfix

/-- The last four sanitizer passes leave no `\n={60}` needle: the separator
pass removes it and the whitespace passes cannot recreate it. -/
theorem sanitize_tail_free (t8 : Str) :
    containsB sep61 (stripL (collapseNewlineRuns 0 (collapseSpaceRuns false
      (mapLines sep60Line t8)))) = false := by
  cases hc : containsB sep61 (stripL (collapseNewlineRuns 0
      (collapseSpaceRuns false (mapLines sep60Line t8)))) with
  | false => rfl
  | true =>
    exfalso
    have h2 := containsB_mono sep61 _ _ (by simp [sep61])
      (infix_stripL _) hc
    have h2' : containsB ('\n' :: rep (59 + 1) '=') (collapseNewlineRuns 0
        (collapseSpaceRuns false (mapLines sep60Line t8))) = true := h2
    have h3 := collapseNewline_preserves_free 59 0 _ h2'
    have h4 := collapseSpace_preserves_free (59 + 1) false _ h3
    have h5 : containsB sep61 (mapLines sep60Line t8) = true := h4
    rw [mapLines_sep60_free] at h5
    exact absurd h5 (by simp)

/-- The sanitizer's output never contains `\n={60}`. -/
theorem sanitize_sep_free (s : Str) :
    containsB sep61 (sanitize_openai_markup s) = false :=
  sanitize_tail_free _

/-- If the text does not contain `\n={60}`, the registry header pattern has
no match: the pattern's third line is a 70-`=` line at index ≥ 2. -/
theorem findRegistry_none_of_free (u : Str)
    (hfree : containsB sep61 u = false) :
    findRegistry 0 (splitLines u) = none := by
  have hmain : ∀ tl, tl <:+ splitLines u → registryHere tl = false := by
    intro tl hsuff
    cases hreg : registryHere tl with
    | false => rfl
    | true =>
      exfalso
      rcases tl with _ | ⟨l0, _ | ⟨l1, _ | ⟨l2, _ | ⟨l3, rest⟩⟩⟩⟩
      · simp [registryHere] at hreg
      · simp [registryHere] at hreg
      · simp [registryHere] at hreg
      · simp [registryHere] at hreg
      · unfold registryHere at hreg
        simp only [Bool.and_eq_true, decide_eq_true_eq] at hreg
        obtain ⟨⟨⟨⟨h1, h2⟩, hl2⟩, h4⟩, h5⟩ := hreg
        cases hsl : splitLines u with
          | nil => exact absurd hsl (splitLines_ne_nil u)
          | cons h0 t0 =>
            rw [hsl] at hsuff
            have hl2mem : l2 ∈ t0 := by
              rw [List.suffix_cons_iff] at hsuff
              rcases hsuff with heq | hsuff
              · injection heq with h0eq teq
                rw [← teq]
                simp
              · exact hsuff.subset (by simp)
            have hcont : containsB ('\n' :: rep 60 '=') (joinLines (h0 :: t0)) =
                true := by
              apply contains_newline_prefix_of_tail h0 t0 (rep 60 '=') l2
                (by simp [rep]) hl2mem
              rw [hl2]
              exact rep_prefix_rep '=' 60 70 (by omega)
            have hju : joinLines (h0 :: t0) = u := by
              rw [← hsl]
              exact joinLines_splitLines u
            rw [hju] at hcont
            have hfree2 : containsB ('\n' :: rep 60 '=') u = false := hfree
            rw [hfree2] at hcont
            exact absurd hcont (by simp)
  have haux : ∀ (ls : List Str) (i : Nat),
      (∀ tl, tl <:+ ls → registryHere tl = false) → findRegistry i ls = none := by
    intro ls
    induction ls with
    | nil => intro i _; rfl
    | cons l rest ih =>
      intro i hall
      unfold findRegistry
      rw [hall (l :: rest) (List.suffix_refl _)]
      simp only [Bool.false_eq_true, if_false]
      exact ih (i + 1) (fun tl htl => hall tl (htl.trans (List.suffix_cons l rest)))
  exact haux (splitLines u) 0 hmain

/-- C9: the sanitize pass `^={60,}.*?$` blanks every line that starts with
60 or more `=` characters (first conjunct), and since the later sanitizer
passes cannot re-create a 70-`=` line below the first line, the
`SOURCES REGISTRY` pattern of `_reorganize_sources_section` can never match
sanitized text: after `_sanitize_openai_markup`, source reorganization is
the identity for every input and every used-links set. -/
theorem reorganize_after_sanitize_identity (s : Str) (u : List Str) :
    (∀ l ∈ splitLines (mapLines sep60Line s),
        (l.takeWhile (fun c => c = '=')).length < 60) ∧
    reorganize_sources_section (sanitize_openai_markup s) u =
      sanitize_openai_markup s := by
  constructor
  · intro l hl
    unfold mapLines at hl
    have hnl : ∀ x ∈ (splitLines s).map sep60Line, '\n' ∉ x := by
      intro x hx
      rw [List.mem_map] at hx
      obtain ⟨x', hx', rfl⟩ := hx
      have := splitLines_no_newline s x' hx'
      unfold sep60Line
      split
      · simp
      · exact this
    rw [splitLines_joinLines _ (by
        have := splitLines_ne_nil s
        simpa using this) hnl] at hl
    rw [List.mem_map] at hl
    obtain ⟨l', _, rfl⟩ := hl
    exact sep60Line_bound l'
  · unfold reorganize_sources_section
    rw [findRegistry_none_of_free _ (sanitize_sep_free s)]

/-! ### The empty-working-text check (C8) -/

/-- C8: without a config, a build whose cleaning chain reduces the working
body to whitespace dies with the filters/keywords/patterns message.  (The
claim's "regardless of the other build options" is refuted by the config
option: see the counterexample, where config front matter is prepended
before the check and the build succeeds on the same empty body.) -/
theorem empty_working_fatal (tsLocal : Int → Str) (now : Int) (raw : Str)
    (used_links : List Str) (dedup : Bool) (patterns : Option (List Str))
    (convs selected : List Conv) (topics : List Str)
    (hempty : stripL (cleanedBody raw used_links dedup patterns).1 = []) :
    buildWorkingTxt tsLocal now raw none used_links dedup patterns convs
      selected topics = .error dieMsg ∧
    containsB "FILTERS/KEYWORDS/PATTERNS".toList dieMsg = true := by
  constructor
  · have hcond : (stripL (cleanedBody raw used_links dedup patterns).1).isEmpty
        = true := by
      rw [hempty]
      rfl
    unfold buildWorkingTxt
    simp only [hcond, if_true]
  · decide

/-- C8 witness: a raw body consisting of one HTML tag cleans to nothing, and
the config-less build fails fatally. -/
theorem empty_working_fatal_witness :
    buildWorkingTxt (fun _ => []) 0 "<a>".toList none [] false none [] [] []
      = .error dieMsg ∧
    containsB "FILTERS/KEYWORDS/PATTERNS".toList dieMsg = true :=
  empty_working_fatal (fun _ => []) 0 "<a>".toList [] false none [] [] []
    (by decide)

/-- C8 counterexample: with a column config, the control-layer front matter
is prepended **before** the emptiness check, so the same whitespace-only
cleaned body no longer aborts the build — the failure is not independent of
the other build options. -/
theorem empty_working_fatal_counterexample :
    stripL (cleanedBody "<a>".toList [] true none).1 = [] ∧
    (buildWorkingTxt (fun _ => "2024-01-01 00:00:00".toList) 0 "<a>".toList
      (some { scope_router := some "Scope".toList }) [] true none [] []
      []).isOk = true := by
  decide

/-! ### Appendix-marker occurrence counting (C1) -/

/-- Counting over an append whose right part starts with a newline splits,
for newline-free needles: no occurrence can straddle the boundary. -/
theorem countPos_append_nl (n a b : Str) (hn : '\n' ∉ n) :
    countPos n (a ++ '\n' :: b) = countPos n a + countPos n ('\n' :: b) := by
  induction a with
  | nil => simp [countPos]
  | cons c a' ih =>
    have hind : n.isPrefixOf (c :: (a' ++ '\n' :: b)) =
        n.isPrefixOf (c :: a') := by
      cases h1 : n.isPrefixOf (c :: (a' ++ '\n' :: b)) with
      | true =>
        rw [List.isPrefixOf_iff_prefix] at h1
        have h2 : n <+: c :: a' := by
          have : (c :: a') ++ '\n' :: b = c :: (a' ++ '\n' :: b) := rfl
          exact prefix_append_nl n (c :: a') b hn (this ▸ h1)
        rw [eq_comm, List.isPrefixOf_iff_prefix]
        exact h2
      | false =>
        cases h2 : n.isPrefixOf (c :: a') with
        | false => rfl
        | true =>
          rw [List.isPrefixOf_iff_prefix] at h2
          have h3 : n <+: c :: (a' ++ '\n' :: b) := by
            have : c :: (a' ++ '\n' :: b) = (c :: a') ++ '\n' :: b := rfl
            rw [this]
            exact h2.trans (List.prefix_append _ _)
          rw [← List.isPrefixOf_iff_prefix] at h3
          rw [h3] at h1
          exact absurd h1 (by simp)
    have hla : (c :: a') ++ '\n' :: b = c :: (a' ++ '\n' :: b) := rfl
    rw [hla]
    simp only [countPos, hind, ih]
    omega

/-- Counting past a head that cannot start the needle. -/
theorem countPos_cons_ne (c0 : Char) (n' : Str) (c : Char) (t : Str)
    (h : c ≠ c0) : countPos (c0 :: n') (c :: t) = countPos (c0 :: n') t := by
  have hp : (c0 :: n').isPrefixOf (c :: t) = false := by
    cases hip : (c0 :: n').isPrefixOf (c :: t) with
    | false => rfl
    | true =>
      rw [List.isPrefixOf_iff_prefix, List.cons_prefix_cons] at hip
      exact absurd hip.1.symm h
  simp [countPos, hp]

/-- Zero occurrences is exactly non-containment. -/
theorem countPos_zero_iff (n s : Str) :
    countPos n s = 0 ↔ containsB n s = false := by
  induction s with
  | nil => simp [countPos, containsB]
  | cons c t ih =>
    simp only [countPos, containsB, Bool.or_eq_false_iff]
    cases h : n.isPrefixOf (c :: t) with
    | true => simp [ih]
    | false => simpa using ih

/-- A contained right part of the needle is itself contained. -/
theorem containsB_of_append (u v s : Str) (hv : v ≠ [])
    (h : containsB (u ++ v) s = true) : containsB v s = true := by
  have huv : u ++ v ≠ [] := by simp [hv]
  have hinf := (containsB_infix_iff _ _ huv).mp h
  exact (containsB_infix_iff _ _ hv).mpr
    ((List.suffix_append u v).isInfix.trans hinf)

/-- A line containing the appendix marker is detected as a header line even
after zero-width characters are removed. -/
theorem marker_line_header (l : Str)
    (h : containsB appendixMarker l = true) :
    is_appendix_header_line (l.filter (fun c => !(zeroWidthChar c))) = true := by
  obtain ⟨x, y, hxy⟩ := (containsB_infix_iff _ _ (by decide)).mp h
  have hfm : appendixMarker.filter (fun c => !(zeroWidthChar c)) =
      appendixMarker := by decide
  have hfl : l.filter (fun c => !(zeroWidthChar c)) =
      x.filter (fun c => !(zeroWidthChar c)) ++ appendixMarker ++
      y.filter (fun c => !(zeroWidthChar c)) := by
    rw [← hxy, List.filter_append, List.filter_append, hfm]
  rw [hfl]
  unfold is_appendix_header_line
  simp only [List.filter_append, List.map_append, Bool.and_eq_true]
  constructor
  · apply containsB_mono _ _ _ (by decide)
      (List.infix_append _ ((appendixMarker.filter Char.isAlpha).map
        Char.toUpper) _)
    decide
  · apply containsB_mono _ _ _ (by decide)
      (List.infix_append _ ((appendixMarker.filter Char.isAlpha).map
        Char.toUpper) _)
    decide

/-- The marker never starts at a newline. -/
theorem countPos_marker_cons_nl (x : Str) :
    countPos appendixMarker ('\n' :: x) = countPos appendixMarker x := by
  have h : appendixMarker = 'A' :: appendixMarker.tail := rfl
  rw [h]
  exact countPos_cons_ne 'A' appendixMarker.tail '\n' x (by decide)

/-- Marker occurrences in a joined line list are counted line by line. -/
theorem countPos_marker_joinLines (ls : List Str) :
    countPos appendixMarker (joinLines ls) =
      (ls.map (countPos appendixMarker)).sum := by
  induction ls with
  | nil => rfl
  | cons l rest ih =>
    cases rest with
    | nil => simp [joinLines]
    | cons l1 rest1 =>
      have hj : joinLines (l :: l1 :: rest1) =
          l ++ '\n' :: joinLines (l1 :: rest1) := rfl
      rw [hj, countPos_append_nl _ _ _ (by decide), countPos_marker_cons_nl,
        List.map_cons, List.sum_cons, ← ih]

/-- C1 part (a): the artifact quarantine leaves no marker occurrence in the
cleaned text — any line containing the marker is detected as a stray header
line and dropped. -/
theorem extract_research_artifacts_marker_free (t : Str) :
    countPos appendixMarker (extract_research_artifacts t).1 = 0 := by
  unfold extract_research_artifacts
  rw [countPos_marker_joinLines]
  apply List.sum_eq_zero
  intro x hx
  rw [List.mem_map] at hx
  obtain ⟨l, hl, rfl⟩ := hx
  have hkeep : lineFate l = LineFate.keep := by
    have := List.of_mem_filter hl
    simpa using this
  rw [countPos_zero_iff]
  cases hc : containsB appendixMarker l with
  | false => rfl
  | true =>
    exfalso
    have hhd := marker_line_header l hc
    unfold lineFate at hkeep
    rw [if_pos hhd] at hkeep
    exact absurd hkeep (by simp)

/-- The split of a text produces at most one more part than the number of
occurrence positions of the separator. -/
theorem splitOnAux_length_le (n0 : Char) (nr : Str) :
    ∀ (fuel : Nat) (s : Str),
      (splitOnAux n0 nr fuel s).length ≤ countPos (n0 :: nr) s + 1 := by
  intro fuel
  induction fuel with
  | zero => intro s; simp [splitOnAux]
  | succ fuel ih =>
    intro s
    cases s with
    | nil => simp [splitOnAux]
    | cons c t =>
      unfold splitOnAux
      by_cases hp : (n0 :: nr).isPrefixOf (c :: t)
      · rw [if_pos hp]
        have h1 := ih (t.drop nr.length)
        have h2 : countPos (n0 :: nr) (t.drop nr.length) ≤
            countPos (n0 :: nr) t := by
          have haux : ∀ (k : Nat) (u : Str), countPos (n0 :: nr) (u.drop k) ≤
              countPos (n0 :: nr) u := by
            intro k
            induction k with
            | zero => intro u; simp
            | succ k ihk =>
              intro u
              cases u with
              | nil => simp
              | cons d u' =>
                have : (d :: u').drop (k + 1) = u'.drop k := rfl
                rw [this]
                have := ihk u'
                simp only [countPos]
                omega
          exact haux nr.length t
        simp only [List.length_cons, countPos, hp, if_true]
        omega
      · rw [if_neg hp]
        have h1 := ih t
        simp only [countPos, if_neg hp]
        cases hrec : splitOnAux n0 nr fuel t with
        | nil => simp
        | cons p ps =>
          rw [hrec] at h1
          simp only [List.length_cons] at h1 ⊢
          omega

/-- C1 part (c): with at most one marker occurrence the final safety pass is
the identity. -/
theorem dedupe_appendix_header_id (u : Str)
    (h : countPos appendixMarker u ≤ 1) :
    dedupe_appendix_header u = u := by
  unfold dedupe_appendix_header
  cases hc : containsB appendixMarker u with
  | false => simp
  | true =>
    simp only [hc, if_true]
    have hlen := splitOnAux_length_le 'A' (appendixMarker.drop 1)
      (u.length + 1) u
    have hmk : ('A' :: appendixMarker.drop 1) = appendixMarker := rfl
    rw [hmk] at hlen
    have : (splitOnP 'A' (appendixMarker.drop 1) u).length ≤ 2 := by
      unfold splitOnP
      omega
    rw [if_pos this]

/-- Marker-free artifact strings joined with blank lines stay marker-free. -/
theorem countPos_marker_joinPara (arts : List Str)
    (hfree : ∀ a ∈ arts,
      containsB "RESEARCH LOG & TOOL ARTIFACTS".toList a = false) :
    countPos appendixMarker (joinPara arts) = 0 := by
  have hone : ∀ a ∈ arts, countPos appendixMarker a = 0 := by
    intro a ha
    rw [countPos_zero_iff]
    cases hc : containsB appendixMarker a with
    | false => rfl
    | true =>
      exfalso
      have hsub : containsB "RESEARCH LOG & TOOL ARTIFACTS".toList a = true := by
        apply containsB_of_append "APPENDIX: ".toList _ _ (by decide)
        have : "APPENDIX: ".toList ++ "RESEARCH LOG & TOOL ARTIFACTS".toList =
            appendixMarker := by decide
        rw [this]
        exact hc
      rw [hfree a ha] at hsub
      exact absurd hsub (by simp)
  induction arts with
  | nil => rfl
  | cons a rest ih =>
    cases rest with
    | nil =>
      have : joinPara [a] = a := rfl
      rw [this]
      exact hone a (List.mem_cons_self a [])
    | cons b rest1 =>
      have hj : joinPara (a :: b :: rest1) =
          a ++ '\n' :: ('\n' :: joinPara (b :: rest1)) := rfl
      rw [hj, countPos_append_nl _ _ _ (by decide), countPos_marker_cons_nl,
        countPos_marker_cons_nl]
      have h1 := hone a (List.mem_cons_self a _)
      have h2 := ih (fun x hx => hfree x (List.mem_cons_of_mem a hx))
        (fun x hx => hone x (List.mem_cons_of_mem a hx))
      omega

/-- The appendix block carries exactly one marker occurrence when its
artifacts are marker-free. -/
theorem countPos_marker_appendixBlock (arts : List Str)
    (hfree : ∀ a ∈ arts,
      containsB "RESEARCH LOG & TOOL ARTIFACTS".toList a = false) :
    countPos appendixMarker (appendixBlock arts) = 1 := by
  have hb : appendixBlock arts =
      ("\n\n".toList ++ rep 70 '=') ++ '\n' :: (appendixMarker ++ '\n' ::
        ((rep 70 '=' ++ "\n\nThis section contains metadata, tool-call fragments, and provenance\ninformation from the research extraction process.".toList) ++
          '\n' :: ('\n' :: joinPara arts))) := rfl
  rw [hb, countPos_append_nl _ _ _ (by decide), countPos_marker_cons_nl,
    countPos_append_nl _ _ _ (by decide), countPos_marker_cons_nl,
    countPos_append_nl _ _ _ (by decide), countPos_marker_cons_nl,
    countPos_marker_cons_nl, countPos_marker_joinPara arts hfree]
  decide

/-- C1: in an assembly whose pre-appendix part (index, coverage, cleaned
working text) is marker-free, the final text contains the appendix marker
exactly once when the artifact list is non-empty and zero times when it is
empty (part 1); the artifact quarantine makes the cleaned body marker-free
for every input (part 2); and with at most one occurrence the final safety
pass drops nothing (part 3).  The claim's unconditional "zero times"
guarantee fails because the index is generated from unsanitized titles: see
the counterexample. -/
theorem appendix_marker_occurrences (idx cov : List Str) (working : Str)
    (arts : List Str)
    (hpre : countPos appendixMarker (assemblePre idx cov working) = 0)
    (hfree : ∀ a ∈ arts,
      containsB "RESEARCH LOG & TOOL ARTIFACTS".toList a = false) :
    countPos appendixMarker (assembleFinal idx cov working arts) =
      (if arts.isEmpty then 0 else 1) ∧
    (∀ t, countPos appendixMarker (extract_research_artifacts t).1 = 0) ∧
    (∀ u, countPos appendixMarker u ≤ 1 → dedupe_appendix_header u = u) := by
  refine ⟨?_, extract_research_artifacts_marker_free,
    fun u hu => dedupe_appendix_header_id u hu⟩
  unfold assembleFinal
  cases arts with
  | nil =>
    have hsimp : assemblePre idx cov working ++
        (if ([] : List Str).isEmpty then [] else appendixBlock []) =
        assemblePre idx cov working := by simp
    rw [hsimp, dedupe_appendix_header_id _ (by omega), hpre]
    rfl
  | cons a rest =>
    have hif : (if (a :: rest).isEmpty then ([] : Str)
        else appendixBlock (a :: rest)) = appendixBlock (a :: rest) := rfl
    rw [hif]
    have h1 : countPos appendixMarker (assemblePre idx cov working ++
        appendixBlock (a :: rest)) = 1 := by
      have hblock : appendixBlock (a :: rest) =
          '\n' :: (appendixBlock (a :: rest)).tail := rfl
      rw [hblock, countPos_append_nl _ _ _ (by decide), hpre, ← hblock,
        countPos_marker_appendixBlock _ hfree]
    rw [dedupe_appendix_header_id _ (by omega), h1]
    rfl

/-- C1 witness: one marker-free index line, a marker-free body and one
substantial artifact give a final text with exactly one marker occurrence. -/
theorem appendix_marker_occurrences_witness :
    countPos appendixMarker (assembleFinal ["## WORKING INDEX\n\n".toList] []
      "Hello".toList ["[Search Fragment] query q".toList]) = 1 :=
  ((appendix_marker_occurrences ["## WORKING INDEX\n\n".toList] []
    "Hello".toList ["[Search Fragment] query q".toList] (by decide)
    (by decide)).1).trans (by decide)

/-- C1 counterexample: a conversation titled with the literal appendix
marker flows unsanitized into the working index's timeline line, so the
completed build returns an **empty** artifact list yet a final text
containing the marker **once** — refuting "zero times if the artifact list
is empty". -/
theorem appendix_marker_occurrences_counterexample :
    (buildWorkingTxt cTsLocal 1700000000 cRaw none [] true none [] [cConv]
      []).toOption.map (fun p => (p.2, countPos appendixMarker p.1)) =
      some ([], 1) := by
  decide
